import Mathlib

/-!
Shallow embedding of the chunked procedural terrain store of the `jmc`
repository (files `src/game_map.rs` and `src/color_scheme.rs`).

Modelling conventions:
* Rust `u32` values are modelled as `ℕ` together with explicit wrapping
  operations `wadd`, `wsub`, `wmul` (release-mode two's-complement
  wrapping, i.e. reduction modulo `2 ^ 32`) applied exactly where the
  source performs `u32` arithmetic that can overflow.
* Rust `f64` / `f32` values are modelled as `ℚ`; the decimal literals of
  the source (`0.5`, `0.6`, `0.4`, `1.0`, `7.0`, `8.0`) are exact
  rationals.  The `u32 as f64` casts (noise-sample coordinates) are exact
  because every `u32` is below `2 ^ 53`, so they are modelled by the exact
  cast `ℕ → ℚ`; the lossy `u32 as f32` cast used for `Tile.pos` is
  modelled by `f32ofNat`, the IEEE-754 binary32
  round-to-nearest-ties-to-even rounding (exact only up to `2 ^ 24`).
* The external `noise` crate sampler
  (`ScalePoint::new(Billow::new().set_seed(..).set_frequency(0.125)
  .set_persistence(0.35)).set_scale(0.1)`) is an external library whose
  output the repository only consumes; it is modelled as a parameter
  `noise : ℕ → ℚ → ℚ → ℚ → ℚ` mapping the seed and the three sample
  coordinates to the sampled value.  All theorems quantify over it.
* `std::collections::HashMap` is modelled as an association list with
  first-match lookup (`mfind`), membership test (`mcontains`) and
  replace-or-append insertion (`minsert`); the program never iterates
  over a map, so the hash order is unobservable.
* Fallible operations (`Option::unwrap`, `Vec` indexing) are modelled
  with `Option`: `get_tile` returns `none` exactly where the Rust
  program would panic.  `get_tile` additionally returns the updated
  store and a `Bool` recording whether chunk generation was invoked
  (instrumentation of the `if !y_map.contains_key(..)` branch).
-/

namespace JMC

/-- Size of the `u32` value space, `2 ^ 32`. -/
def U32 : ℕ := 4294967296

/-- Wrapping `u32` addition (release-mode Rust `+`). -/
def wadd (a b : ℕ) : ℕ := (a + b) % U32

/-- Wrapping `u32` subtraction (release-mode Rust `-`). -/
def wsub (a b : ℕ) : ℕ := (a + (U32 - b % U32)) % U32

/-- Wrapping `u32` multiplication (release-mode Rust `*`). -/
def wmul (a b : ℕ) : ℕ := a * b % U32

/-- The `ColorName` enum of `src/color_scheme.rs`. -/
inductive ColorName : Type where
  | Bg | Fg | Fg0 | Fg1 | Fg2 | Fg3 | Fg4
  | Gray | LightGray
  | Red | LightRed
  | Green | LightGreen
  | Yellow | LightYellow
  | Blue | LightBlue
  | Purple | LightPurple
  | Aqua | LightAqua
  | Orange | LightOrange
  | Void
  | Stone0 | Stone1 | Stone2 | Stone3 | Stone4 | Stone5 | Stone6
  deriving DecidableEq, Repr

/-- Embedding of `get_stone_color` from `src/color_scheme.rs`: a 7-band
half-open quantization of `[min, max]`, `else`-branch catch-all `Stone6`. -/
def get_stone_color (val mn mx : ℚ) : ColorName :=
  let step := (mx - mn) / 7
  if mn ≤ val ∧ val < mn + step then ColorName.Void
  else if mn + step ≤ val ∧ val < mn + 2 * step then ColorName.Stone1
  else if mn + 2 * step ≤ val ∧ val < mn + 3 * step then ColorName.Stone2
  else if mn + 3 * step ≤ val ∧ val < mn + 4 * step then ColorName.Stone3
  else if mn + 4 * step ≤ val ∧ val < mn + 5 * step then ColorName.Stone4
  else if mn + 5 * step ≤ val ∧ val < mn + 6 * step then ColorName.Stone5
  else ColorName.Stone6

/-- Embedding of `get_floor_color` from `src/color_scheme.rs`: an 8-band
quantization that maps only bands 0, 2, 3, 4, 5; `else`-branch catch-all
`Void` (band 1, bands 6 and up, and values below `min` all fall through). -/
def get_floor_color (val mn mx : ℚ) : ColorName :=
  let step := (mx - mn) / 8
  if mn ≤ val ∧ val < mn + step then ColorName.Stone6
  else if mn + 2 * step ≤ val ∧ val < mn + 3 * step then ColorName.Stone5
  else if mn + 3 * step ≤ val ∧ val < mn + 4 * step then ColorName.Stone4
  else if mn + 4 * step ≤ val ∧ val < mn + 5 * step then ColorName.Stone3
  else if mn + 5 * step ≤ val ∧ val < mn + 6 * step then ColorName.Stone2
  else ColorName.Void

/-- The `Tile` struct of `src/game_map.rs` (`pos: Vector` modelled as an
exact pair of rationals, `val: f64` as a rational). -/
structure Tile : Type where
  pos : ℚ × ℚ
  depth : ℕ
  glyph : Char
  color : ColorName
  val : ℚ
  deriving DecidableEq, Repr

/-- Association-list lookup modelling `HashMap::get` (first match). -/
def mfind {α : Type} (l : List (ℕ × α)) (k : ℕ) : Option α :=
  (l.find? (fun p => p.1 == k)).map Prod.snd

/-- Association-list membership modelling `HashMap::contains_key`. -/
def mcontains {α : Type} (l : List (ℕ × α)) (k : ℕ) : Bool :=
  (mfind l k).isSome

/-- Association-list insertion modelling `HashMap::insert`: replace the
binding when the key is present, append it otherwise. -/
def minsert {α : Type} (l : List (ℕ × α)) (k : ℕ) (v : α) : List (ℕ × α) :=
  if mcontains l k then l.map (fun p => if p.1 = k then (k, v) else p)
  else l ++ [(k, v)]

/-- One depth slice of a chunk: the `Vec<Tile>` of `src/game_map.rs`. -/
abbrev Slice : Type := List Tile

/-- A chunk: the `HashMap<u32, Vec<Tile>>` keyed by local depth index. -/
abbrev Chunk : Type := List (ℕ × Slice)

/-- The z level of the nested store: center-z key to chunk. -/
abbrev ZMap : Type := List (ℕ × Chunk)

/-- The y level of the nested store: center-y key to z level. -/
abbrev YMap : Type := List (ℕ × ZMap)

/-- The whole nested store: center-x key to y level. -/
abbrev Store : Type := List (ℕ × YMap)

instance : DecidableEq Chunk := inferInstance

instance : DecidableEq YMap := inferInstance

instance : DecidableEq Store := inferInstance

/-- Embedding of `round_to_boundries` from `src/game_map.rs`. -/
def round_to_boundries (n m : ℕ) : ℕ × ℕ :=
  if n = 0 then (0, m)
  else
    let mx := wmul (wsub (wadd n m) 1 / m) m
    let mn := wsub mx m
    (mn, mx)

/-- Embedding of `get_chunck_boundries` from `src/game_map.rs`: each axis
coordinate is incremented by 1, then rounded to chunk boundaries. -/
def get_chunck_boundries (x y z chunk_size : ℕ) : ℕ × ℕ × ℕ × ℕ × ℕ × ℕ :=
  let cx := wadd x 1
  let cy := wadd y 1
  let cz := wadd z 1
  let xb := round_to_boundries cx chunk_size
  let yb := round_to_boundries cy chunk_size
  let zb := round_to_boundries cz chunk_size
  (xb.1, xb.2, yb.1, yb.2, zb.1, zb.2)

/-- Spacing of IEEE-754 binary32 floats in the binade of `n`, for every
`n < 2 ^ 32` (the only inputs arising from `u32` coordinates): floats in
`[2 ^ e, 2 ^ (e + 1))` are `2 ^ (e - 23)` apart (24-bit significand). -/
def f32ulp (n : ℕ) : ℕ :=
  if n < 2 ^ 24 then 1
  else if n < 2 ^ 25 then 2 ^ 1
  else if n < 2 ^ 26 then 2 ^ 2
  else if n < 2 ^ 27 then 2 ^ 3
  else if n < 2 ^ 28 then 2 ^ 4
  else if n < 2 ^ 29 then 2 ^ 5
  else if n < 2 ^ 30 then 2 ^ 6
  else if n < 2 ^ 31 then 2 ^ 7
  else 2 ^ 8

/-- Rust `u32 as f32`, modelled for `n < 2 ^ 32`: IEEE-754 binary32
rounding (round to nearest, ties to even) of the integer `n`.  Exact for
`n ≤ 2 ^ 24`, lossy above. -/
def f32round (n : ℕ) : ℕ :=
  let ulp := f32ulp n
  let q := n / ulp
  let r := n % ulp
  if 2 * r < ulp then q * ulp
  else if ulp < 2 * r then (q + 1) * ulp
  else if q % 2 = 0 then q * ulp else (q + 1) * ulp

/-- The value of the `u32 as f32` cast, as a rational. -/
def f32ofNat (n : ℕ) : ℚ := (f32round n : ℚ)

/-- One cell of `generate_map_chunk` (the body of the innermost loop of
`src/game_map.rs` lines 118-144): sample the noise at
`(x, y, z * level_thickness)`, take the absolute value, classify.  The
`Vector::new(x as f32, y as f32)` position applies the lossy `f32` cast;
the `as f64` casts feeding the sampler are exact. -/
def mkTile (noise : ℕ → ℚ → ℚ → ℚ → ℚ) (random_seed level_thickness : ℕ)
    (x y z : ℕ) : Tile :=
  let z_depth := wmul z level_thickness
  let val : ℚ := |noise random_seed (x : ℚ) (y : ℚ) (z_depth : ℚ)|
  let t1 : Tile :=
    { pos := (f32ofNat x, f32ofNat y), depth := z, glyph := '#',
      color := get_stone_color val 0 (1 / 2), val := val }
  let t2 : Tile :=
    if |val| ≥ 3 / 5 then
      { t1 with glyph := '.', color := get_floor_color val (2 / 5) 1 }
    else t1
  if t2.color = ColorName.Void ∧ t2.glyph = '#' then
    { t2 with glyph := '≈', color := ColorName.Blue }
  else t2

/-- One depth slice produced by `generate_map_chunk`: the two inner loops
(`for y in y_min..y_max`, `for x in x_min..x_max`), row-major with x inner. -/
def genSlice (noise : ℕ → ℚ → ℚ → ℚ → ℚ) (random_seed level_thickness : ℕ)
    (x_min x_max y_min y_max z : ℕ) : Slice :=
  (List.range' y_min (y_max - y_min)).flatMap (fun y =>
    (List.range' x_min (x_max - x_min)).map (fun x =>
      mkTile noise random_seed level_thickness x y z))

/-- Embedding of `generate_map_chunk` from `src/game_map.rs`: iterate the
depth range in descending order (`(z_min..z_max).rev()`), inserting each
slice under key `z % chunk_size`. -/
def generate_map_chunk (noise : ℕ → ℚ → ℚ → ℚ → ℚ) (map : Chunk)
    (x_min x_max y_min y_max z_min z_max chunk_size level_thickness
     random_seed : ℕ) : Chunk :=
  ((List.range' z_min (z_max - z_min)).reverse).foldl
    (fun m z =>
      minsert m (z % chunk_size)
        (genSlice noise random_seed level_thickness x_min x_max y_min y_max z))
    map

/-- The `GameMap` struct of `src/game_map.rs`. -/
structure GameMap : Type where
  map : Store
  chunk_size : ℕ
  max_chuncks_x : ℕ
  max_chuncks_y : ℕ
  max_chuncks_z : ℕ
  surface_level : ℕ
  level_thickness : ℕ
  random_seed : ℕ
  deriving DecidableEq, Repr

/-- Size of the `u64` value space, `2 ^ 64`. -/
def U64 : ℕ := 18446744073709551616

/-- State of the external `oorandom::Rand32` PCG32 generator (oorandom
11.x), modelled because `GameMap::new` derives its seed from it. -/
structure Rand32 : Type where
  state : ℕ
  inc : ℕ
  deriving DecidableEq, Repr

/-- The PCG32 multiplier constant of `oorandom::Rand32`. -/
def rand32Multiplier : ℕ := 6364136223846793005

/-- The PCG32 default increment constant of `oorandom::Rand32`. -/
def rand32DefaultInc : ℕ := 1442695040888963407

/-- Rust `u32::rotate_right` (rotation amount taken modulo 32). -/
def rotateRight32 (x r : ℕ) : ℕ :=
  ((x >>> (r % 32)) ||| (x <<< ((32 - r % 32) % 32))) % U32

/-- The `rand_u32` step of `oorandom::Rand32` (PCG XSH RR 64/32). -/
def Rand32.rand_u32 (rng : Rand32) : ℕ × Rand32 :=
  let oldstate := rng.state
  let newstate := (oldstate * rand32Multiplier + rng.inc) % U64
  let xorshifted := (((oldstate >>> 18) ^^^ oldstate) >>> 27) % U32
  let rot := oldstate >>> 59
  (rotateRight32 xorshifted rot, { state := newstate, inc := rng.inc })

/-- The `oorandom::Rand32::new` constructor: default increment, state
seeded by two warm-up steps around adding the seed. -/
def Rand32.new (seed : ℕ) : Rand32 :=
  let rng0 : Rand32 :=
    { state := 0, inc := ((rand32DefaultInc <<< 1) % U64) ||| 1 }
  let rng1 := (rng0.rand_u32).2
  let rng2 : Rand32 := { state := (rng1.state + seed) % U64, inc := rng1.inc }
  (rng2.rand_u32).2

/-- Embedding of `GameMap::new` from `src/game_map.rs`: fixed world
constants and a seed drawn from `oorandom::Rand32::new(10).rand_u32()`. -/
def GameMap.new : GameMap :=
  let planet_circumference : ℕ := 20000000
  let planet_crust_thickness : ℕ := 32000
  let surface_level : ℕ := 1000
  let level_thickness : ℕ := 30
  let chunk_size : ℕ := 64
  let max_chuncks_x : ℕ := planet_circumference / chunk_size
  let max_chuncks_y : ℕ := planet_circumference / chunk_size
  let max_chuncks_z : ℕ := planet_crust_thickness / level_thickness / chunk_size
  { map := [],
    chunk_size := chunk_size,
    max_chuncks_x := max_chuncks_x,
    max_chuncks_y := max_chuncks_y,
    max_chuncks_z := max_chuncks_z,
    surface_level := surface_level,
    level_thickness := level_thickness,
    random_seed := ((Rand32.new 10).rand_u32).1 }

/-- Embedding of `GameMap::get_tile` from `src/game_map.rs`.  Returns the
tile, the updated store, and whether generation was invoked; `none` models
a panic of an `unwrap` or of the `Vec` index. -/
def get_tile (noise : ℕ → ℚ → ℚ → ℚ → ℚ) (g : GameMap) (x y z : ℕ) :
    Option (Tile × GameMap × Bool) :=
  let chunk_size := g.chunk_size
  let b := get_chunck_boundries x y z chunk_size
  let x_min := b.1
  let y_min := b.2.2.1
  let z_min := b.2.2.2.2.1
  let x_max := b.2.1
  let y_max := b.2.2.2.1
  let z_max := b.2.2.2.2.2
  let center_x := wadd x_min (chunk_size / 2)
  let center_y := wadd y_min (chunk_size / 2)
  let center_z := wadd z_min (chunk_size / 2)
  let map1 :=
    if mcontains g.map center_x then g.map
    else minsert g.map center_x ([] : YMap)
  match mfind map1 center_x with
  | none => none
  | some x_map =>
    let x_map1 :=
      if mcontains x_map center_y then x_map
      else minsert x_map center_y ([] : ZMap)
    match mfind x_map1 center_y with
    | none => none
    | some y_map =>
      let step :=
        if mcontains y_map center_z then (y_map, false)
        else
          (minsert y_map center_z
            (generate_map_chunk noise ([] : Chunk) x_min x_max y_min y_max
              z_min z_max chunk_size g.level_thickness g.random_seed),
           true)
      let y_map1 := step.1
      let generated := step.2
      match mfind y_map1 center_z with
      | none => none
      | some chunk =>
        let chunk_x := x % chunk_size
        let chunk_y := y % chunk_size
        let chunk_z := z % chunk_size
        match mfind chunk chunk_z with
        | none => none
        | some chunk_plane =>
          let i := wadd chunk_x (wmul chunk_y chunk_size)
          match chunk_plane.get? i with
          | none => none
          | some tile =>
            let x_map2 := minsert x_map1 center_y y_map1
            let map2 := minsert map1 center_x x_map2
            some (tile, { g with map := map2 }, generated)

/-- Lookup of the chunk stored under a center-key triple, following the
three nested lookups of `get_tile`. -/
def lookupChunk (m : Store) (k : ℕ × ℕ × ℕ) : Option Chunk :=
  match mfind m k.1 with
  | none => none
  | some xm =>
    match mfind xm k.2.1 with
    | none => none
    | some ym => mfind ym k.2.2

/-- Number of chunks held by the nested store. -/
def chunkCount (m : Store) : ℕ :=
  (m.map (fun px => (px.2.map (fun py => py.2.length)).sum)).sum

/-- Keys of an association list are pairwise distinct. -/
def NodupKeys {α : Type} (l : List (ℕ × α)) : Prop :=
  (l.map Prod.fst).Nodup

/-- The chunk that generation produces for a given center-key triple:
its bounds are recovered from the center by subtracting `chunk_size / 2`. -/
def genChunkFor (noise : ℕ → ℚ → ℚ → ℚ → ℚ) (cs lt seed : ℕ)
    (k : ℕ × ℕ × ℕ) : Chunk :=
  generate_map_chunk noise [] (k.1 - cs / 2) (k.1 - cs / 2 + cs)
    (k.2.1 - cs / 2) (k.2.1 - cs / 2 + cs)
    (k.2.2 - cs / 2) (k.2.2 - cs / 2 + cs) cs lt seed

/-- Invariant of stores reachable by `get_tile` calls: keys are unique at
every level and every stored chunk is exactly the generated chunk of its
center key. -/
def GoodStore (noise : ℕ → ℚ → ℚ → ℚ → ℚ) (g : GameMap) : Prop :=
  NodupKeys g.map ∧
  ∀ px ∈ g.map, NodupKeys px.2 ∧
    ∀ py ∈ px.2, NodupKeys py.2 ∧
      ∀ pz ∈ py.2, pz.2 =
        genChunkFor noise g.chunk_size g.level_thickness g.random_seed
          (px.1, py.1, pz.1)

/-- Center key of the chunk containing a coordinate triple, as computed
by `get_tile` (chunk minimum plus half the chunk size). -/
def centerKeyOf (cs : ℕ) (c : ℕ × ℕ × ℕ) : ℕ × ℕ × ℕ :=
  (c.1 / cs * cs + cs / 2, c.2.1 / cs * cs + cs / 2, c.2.2 / cs * cs + cs / 2)

/-- Run a sequence of `get_tile` calls, threading the store. -/
def runCalls (noise : ℕ → ℚ → ℚ → ℚ → ℚ) :
    GameMap → List (ℕ × ℕ × ℕ) → Option GameMap
  | g, [] => some g
  | g, c :: rest =>
    match get_tile noise g c.1 c.2.1 c.2.2 with
    | none => none
    | some (_, g', _) => runCalls noise g' rest

/-- Constant noise used to instantiate witnesses. -/
def constNoise : ℕ → ℚ → ℚ → ℚ → ℚ := fun _ _ _ _ => 7 / 10

/-- Zero noise used to instantiate witnesses. -/
def zeroNoise : ℕ → ℚ → ℚ → ℚ → ℚ := fun _ _ _ _ => 0

/-- A small store (chunk size 1, empty map) used to instantiate witnesses
cheaply. -/
def tinyMap : GameMap :=
  { map := [], chunk_size := 1, max_chuncks_x := 0, max_chuncks_y := 0,
    max_chuncks_z := 0, surface_level := 0, level_thickness := 30,
    random_seed := 7 }

/-! ### Association-list lemmas -/

theorem mfind_nil {α : Type} (k : ℕ) : mfind ([] : List (ℕ × α)) k = none := rfl

theorem mfind_cons {α : Type} (p : ℕ × α) (l : List (ℕ × α)) (k : ℕ) :
    mfind (p :: l) k = if p.1 = k then some p.2 else mfind l k := by
  by_cases h : p.1 = k
  · simp [mfind, List.find?_cons_of_pos, h]
  · simp [mfind, List.find?_cons_of_neg, h]

theorem mcontains_eq_true_iff {α : Type} (l : List (ℕ × α)) (k : ℕ) :
    mcontains l k = true ↔ ∃ v, mfind l k = some v := by
  simp [mcontains, Option.isSome_iff_exists]

theorem mcontains_eq_false_iff {α : Type} (l : List (ℕ × α)) (k : ℕ) :
    mcontains l k = false ↔ mfind l k = none := by
  rw [mcontains]
  cases mfind l k <;> simp

theorem mfind_append {α : Type} (l l2 : List (ℕ × α)) (k : ℕ) :
    mfind (l ++ l2) k = (mfind l k).or (mfind l2 k) := by
  induction l with
  | nil => simp [mfind_nil]
  | cons p tl ih =>
      rw [List.cons_append, mfind_cons, mfind_cons]
      by_cases h : p.1 = k
      · simp [h]
      · simp [h, ih]

theorem mfind_map_replace_self {α : Type} (l : List (ℕ × α)) (k : ℕ) (v : α)
    (h : mcontains l k = true) :
    mfind (l.map (fun p => if p.1 = k then (k, v) else p)) k = some v := by
  induction l with
  | nil => simp [mcontains, mfind_nil] at h
  | cons p tl ih =>
      by_cases hp : p.1 = k
      · simp only [List.map_cons, if_pos hp, mfind_cons]
        simp
      · simp only [List.map_cons, if_neg hp, mfind_cons, if_neg hp]
        apply ih
        rw [mcontains_eq_true_iff] at h ⊢
        rcases h with ⟨w, hw⟩
        rw [mfind_cons, if_neg hp] at hw
        exact ⟨w, hw⟩

theorem mfind_map_replace_ne {α : Type} (l : List (ℕ × α)) (k k' : ℕ) (v : α)
    (h : k' ≠ k) :
    mfind (l.map (fun p => if p.1 = k then (k, v) else p)) k' = mfind l k' := by
  induction l with
  | nil => simp
  | cons p tl ih =>
      by_cases hp : p.1 = k
      · simp only [List.map_cons, if_pos hp, mfind_cons]
        rw [if_neg (fun hk => h hk.symm), if_neg (by rw [hp]; exact fun hk => h hk.symm)]
        exact ih
      · simp only [List.map_cons, if_neg hp, mfind_cons]
        by_cases hq : p.1 = k'
        · rw [if_pos hq, if_pos hq]
        · rw [if_neg hq, if_neg hq]
          exact ih

theorem mfind_minsert_self {α : Type} (l : List (ℕ × α)) (k : ℕ) (v : α) :
    mfind (minsert l k v) k = some v := by
  unfold minsert
  by_cases h : mcontains l k
  · rw [if_pos h]
    exact mfind_map_replace_self l k v h
  · rw [if_neg h, mfind_append]
    rw [Bool.not_eq_true] at h
    rw [mcontains_eq_false_iff] at h
    rw [h]
    simp [mfind_cons]

theorem mfind_minsert_ne {α : Type} (l : List (ℕ × α)) (k k' : ℕ) (v : α)
    (h : k' ≠ k) : mfind (minsert l k v) k' = mfind l k' := by
  unfold minsert
  by_cases hc : mcontains l k
  · rw [if_pos hc]
    exact mfind_map_replace_ne l k k' v h
  · rw [if_neg hc, mfind_append]
    have : mfind [(k, v)] k' = none := by
      rw [mfind_cons, if_neg (fun hk => h hk.symm), mfind_nil]
    rw [this]
    cases mfind l k' <;> rfl

/-! ### Characterization of the boundary rounding -/

theorem U32_eq : U32 = 4294967296 := rfl

theorem wadd_eq_of_lt {a b : ℕ} (h : a + b < U32) : wadd a b = a + b := by
  simp only [wadd]
  exact Nat.mod_eq_of_lt h

/-- For positive `n` and `m` with `n + m ≤ 2 ^ 32` the code's
`((n + m - 1) / m) * m` computes the claimed pair exactly. -/
theorem round_to_boundries_eq (n m : ℕ) (hn : 1 ≤ n) (hm : 0 < m)
    (hov : n + m ≤ U32) :
    round_to_boundries n m = ((n - 1) / m * m, (n - 1) / m * m + m) := by
  have h32 : U32 = 4294967296 := rfl
  have e1 : wsub (wadd n m) 1 = n + m - 1 := by
    simp only [wadd, wsub, U32] at *
    omega
  have e3 : (n + m - 1) / m = (n - 1) / m + 1 := by
    have hrw : n + m - 1 = (n - 1) + m := by omega
    rw [hrw, Nat.add_div_right _ hm]
  have hdle : (n - 1) / m * m ≤ n - 1 := Nat.div_mul_le_self _ _
  have e4 : wmul ((n - 1) / m + 1) m = (n - 1) / m * m + m := by
    simp only [wmul, add_one_mul]
    apply Nat.mod_eq_of_lt
    simp only [U32] at *
    omega
  have e5 : wsub ((n - 1) / m * m + m) m = (n - 1) / m * m := by
    simp only [wsub, U32] at *
    omega
  simp only [round_to_boundries, if_neg (by omega : ¬ n = 0)]
  rw [e1, e3, e4, e5]

/-- Claim C2 (amended: the stated formula additionally needs the code's
internal sum `n + m` not to exceed `2 ^ 32`; the counterexample
`claim_C2_counterexample` shows the formula fails when it wraps).
`round_to_boundries(n, m)` returns `(0, m)` when `n = 0`, and for
`1 ≤ n`, `0 < m`, `n + m ≤ 2 ^ 32` returns
`(⌊(n-1)/m⌋ * m, ⌊(n-1)/m⌋ * m + m)`; the `m = 64` table holds exactly. -/
theorem claim_C2 :
    (∀ m : ℕ, round_to_boundries 0 m = (0, m)) ∧
    (∀ n m : ℕ, 1 ≤ n → 0 < m → n + m ≤ U32 →
      round_to_boundries n m = ((n - 1) / m * m, (n - 1) / m * m + m)) ∧
    (round_to_boundries 0 64 = (0, 64) ∧ round_to_boundries 1 64 = (0, 64) ∧
     round_to_boundries 63 64 = (0, 64) ∧ round_to_boundries 64 64 = (0, 64) ∧
     round_to_boundries 128 64 = (64, 128) ∧
     round_to_boundries 129 64 = (128, 192) ∧
     round_to_boundries 175 64 = (128, 192) ∧
     round_to_boundries 192 64 = (128, 192)) := by
  refine ⟨fun m => by simp [round_to_boundries], round_to_boundries_eq, ?_⟩
  refine ⟨by decide, by decide, by decide, by decide, by decide, by decide,
    by decide, by decide⟩

/-- Witness for C2: discharging the hypotheses at `n = 100`, `m = 64`. -/
theorem claim_C2_witness : round_to_boundries 100 64 = (64, 128) := by
  have h := claim_C2.2.1 100 64 (by norm_num) (by norm_num)
    (by rw [U32_eq]; norm_num)
  simpa using h

/-- Counterexample for C2 as stated: at `n = 2 ^ 32 - 1`, `m = 64` (both
legal `u32` inputs with `n ≥ 1`, `m > 0`) the wrapping `u32` computation
returns `max = 0`, not `min + m`: the claimed formula fails. -/
theorem claim_C2_counterexample :
    1 ≤ 4294967295 ∧ 0 < 64 ∧
    round_to_boundries 4294967295 64 = (4294967232, 0) ∧
    (4294967295 - 1) / 64 * 64 = 4294967232 ∧
    round_to_boundries 4294967295 64 ≠
      ((4294967295 - 1) / 64 * 64, (4294967295 - 1) / 64 * 64 + 64) := by
  refine ⟨by norm_num, by norm_num, by decide, by decide, by decide⟩

/-- Claim C3 (amended: the per-axis no-overflow condition must cover the
whole boundary computation, `coord + chunk_size < 2 ^ 32`, not merely the
`+ 1` pre-increment; `claim_C3_counterexample` shows the claim fails when
only the increment avoids overflow).  `get_chunck_boundries` increments
each axis coordinate by exactly 1 before rounding, and under the amended
no-overflow condition each axis pair `(min, max)` satisfies:
`min` is a multiple of `chunk_size`, `max = min + chunk_size`, and
`min ≤ coord < max`. -/
theorem claim_C3 :
    (∀ x y z m : ℕ, get_chunck_boundries x y z m =
       ((round_to_boundries (wadd x 1) m).1, (round_to_boundries (wadd x 1) m).2,
        (round_to_boundries (wadd y 1) m).1, (round_to_boundries (wadd y 1) m).2,
        (round_to_boundries (wadd z 1) m).1, (round_to_boundries (wadd z 1) m).2)) ∧
    (∀ x y z m : ℕ, 0 < m → x + m < U32 → y + m < U32 → z + m < U32 →
      (m ∣ (get_chunck_boundries x y z m).1 ∧
       (get_chunck_boundries x y z m).2.1 = (get_chunck_boundries x y z m).1 + m ∧
       (get_chunck_boundries x y z m).1 ≤ x ∧
       x < (get_chunck_boundries x y z m).2.1) ∧
      (m ∣ (get_chunck_boundries x y z m).2.2.1 ∧
       (get_chunck_boundries x y z m).2.2.2.1 =
         (get_chunck_boundries x y z m).2.2.1 + m ∧
       (get_chunck_boundries x y z m).2.2.1 ≤ y ∧
       y < (get_chunck_boundries x y z m).2.2.2.1) ∧
      (m ∣ (get_chunck_boundries x y z m).2.2.2.2.1 ∧
       (get_chunck_boundries x y z m).2.2.2.2.2 =
         (get_chunck_boundries x y z m).2.2.2.2.1 + m ∧
       (get_chunck_boundries x y z m).2.2.2.2.1 ≤ z ∧
       z < (get_chunck_boundries x y z m).2.2.2.2.2)) := by
  constructor
  · intro x y z m
    rfl
  · intro x y z m hm hx hy hz
    have hax : wadd x 1 = x + 1 := wadd_eq_of_lt (by omega)
    have hay : wadd y 1 = y + 1 := wadd_eq_of_lt (by omega)
    have haz : wadd z 1 = z + 1 := wadd_eq_of_lt (by omega)
    have hrx := round_to_boundries_eq (x + 1) m (by omega) hm (by omega)
    have hry := round_to_boundries_eq (y + 1) m (by omega) hm (by omega)
    have hrz := round_to_boundries_eq (z + 1) m (by omega) hm (by omega)
    have hgb : get_chunck_boundries x y z m =
        (x / m * m, x / m * m + m, y / m * m, y / m * m + m,
         z / m * m, z / m * m + m) := by
      simp only [get_chunck_boundries, hax, hay, haz, hrx, hry, hrz,
        Nat.add_sub_cancel]
    rw [hgb]
    dsimp only
    have hxd := Nat.div_add_mod' x m
    have hxm := Nat.mod_lt x hm
    have hyd := Nat.div_add_mod' y m
    have hym := Nat.mod_lt y hm
    have hzd := Nat.div_add_mod' z m
    have hzm := Nat.mod_lt z hm
    refine ⟨⟨Dvd.intro_left _ rfl, rfl, Nat.div_mul_le_self x m, by omega⟩,
      ⟨Dvd.intro_left _ rfl, rfl, Nat.div_mul_le_self y m, by omega⟩,
      ⟨Dvd.intro_left _ rfl, rfl, Nat.div_mul_le_self z m, by omega⟩⟩

/-- Witness for C3: the hypotheses discharged at `(100, 100, 10)`,
`chunk_size = 64`. -/
theorem claim_C3_witness :
    (get_chunck_boundries 100 100 10 64).1 ≤ 100 ∧
    100 < (get_chunck_boundries 100 100 10 64).2.1 := by
  have h := claim_C3.2 100 100 10 64 (by norm_num)
    (by rw [U32_eq]; norm_num) (by rw [U32_eq]; norm_num)
    (by rw [U32_eq]; norm_num)
  exact ⟨h.1.2.2.1, h.1.2.2.2⟩

/-- Counterexample for C3 as stated: at `x = 2 ^ 32 - 2`, `chunk_size = 64`
the `+ 1` pre-increment itself does not overflow, yet the returned x-axis
pair is `(4294967232, 0)`: `max ≠ min + chunk_size` and the raw coordinate
is not below `max`. -/
theorem claim_C3_counterexample :
    0 < 64 ∧ 4294967294 + 1 < U32 ∧
    (get_chunck_boundries 4294967294 0 0 64).1 = 4294967232 ∧
    (get_chunck_boundries 4294967294 0 0 64).2.1 = 0 ∧
    (get_chunck_boundries 4294967294 0 0 64).2.1 ≠
      (get_chunck_boundries 4294967294 0 0 64).1 + 64 ∧
    ¬ (4294967294 < (get_chunck_boundries 4294967294 0 0 64).2.1) := by
  refine ⟨by norm_num, by rw [U32_eq]; norm_num, by decide, by decide,
    by decide, by decide⟩

/-- Claim C6: the stone ramp is the 7-band half-open quantization of
`[min, max]` with band 0 `Void` and bands 1..6 `Stone1`..`Stone6`; every
value at or above the 6th boundary gets the catch-all `Stone6`, and
values below `min` also fall into the catch-all, so the function is
total. -/
theorem claim_C6 (val mn mx : ℚ) (h : mn < mx) :
    (mn ≤ val ∧ val < mn + (mx - mn) / 7 →
      get_stone_color val mn mx = ColorName.Void) ∧
    (mn + (mx - mn) / 7 ≤ val ∧ val < mn + 2 * ((mx - mn) / 7) →
      get_stone_color val mn mx = ColorName.Stone1) ∧
    (mn + 2 * ((mx - mn) / 7) ≤ val ∧ val < mn + 3 * ((mx - mn) / 7) →
      get_stone_color val mn mx = ColorName.Stone2) ∧
    (mn + 3 * ((mx - mn) / 7) ≤ val ∧ val < mn + 4 * ((mx - mn) / 7) →
      get_stone_color val mn mx = ColorName.Stone3) ∧
    (mn + 4 * ((mx - mn) / 7) ≤ val ∧ val < mn + 5 * ((mx - mn) / 7) →
      get_stone_color val mn mx = ColorName.Stone4) ∧
    (mn + 5 * ((mx - mn) / 7) ≤ val ∧ val < mn + 6 * ((mx - mn) / 7) →
      get_stone_color val mn mx = ColorName.Stone5) ∧
    (mn + 6 * ((mx - mn) / 7) ≤ val →
      get_stone_color val mn mx = ColorName.Stone6) ∧
    (val < mn → get_stone_color val mn mx = ColorName.Stone6) := by
  have hs : 0 < (mx - mn) / 7 := div_pos (sub_pos.mpr h) (by norm_num)
  refine ⟨?_, ?_, ?_, ?_, ?_, ?_, ?_, ?_⟩
  · intro hv
    simp only [get_stone_color]
    rw [if_pos hv]
  · rintro ⟨h1, h2⟩
    simp only [get_stone_color]
    rw [if_neg (by rintro ⟨g1, g2⟩; linarith), if_pos ⟨h1, h2⟩]
  · rintro ⟨h1, h2⟩
    simp only [get_stone_color]
    rw [if_neg (by rintro ⟨g1, g2⟩; linarith),
      if_neg (by rintro ⟨g1, g2⟩; linarith), if_pos ⟨h1, h2⟩]
  · rintro ⟨h1, h2⟩
    simp only [get_stone_color]
    rw [if_neg (by rintro ⟨g1, g2⟩; linarith),
      if_neg (by rintro ⟨g1, g2⟩; linarith),
      if_neg (by rintro ⟨g1, g2⟩; linarith), if_pos ⟨h1, h2⟩]
  · rintro ⟨h1, h2⟩
    simp only [get_stone_color]
    rw [if_neg (by rintro ⟨g1, g2⟩; linarith),
      if_neg (by rintro ⟨g1, g2⟩; linarith),
      if_neg (by rintro ⟨g1, g2⟩; linarith),
      if_neg (by rintro ⟨g1, g2⟩; linarith), if_pos ⟨h1, h2⟩]
  · rintro ⟨h1, h2⟩
    simp only [get_stone_color]
    rw [if_neg (by rintro ⟨g1, g2⟩; linarith),
      if_neg (by rintro ⟨g1, g2⟩; linarith),
      if_neg (by rintro ⟨g1, g2⟩; linarith),
      if_neg (by rintro ⟨g1, g2⟩; linarith),
      if_neg (by rintro ⟨g1, g2⟩; linarith), if_pos ⟨h1, h2⟩]
  · intro h6
    simp only [get_stone_color]
    rw [if_neg (by rintro ⟨g1, g2⟩; linarith),
      if_neg (by rintro ⟨g1, g2⟩; linarith),
      if_neg (by rintro ⟨g1, g2⟩; linarith),
      if_neg (by rintro ⟨g1, g2⟩; linarith),
      if_neg (by rintro ⟨g1, g2⟩; linarith),
      if_neg (by rintro ⟨g1, g2⟩; linarith)]
  · intro hb
    simp only [get_stone_color]
    rw [if_neg (by rintro ⟨g1, g2⟩; linarith),
      if_neg (by rintro ⟨g1, g2⟩; linarith),
      if_neg (by rintro ⟨g1, g2⟩; linarith),
      if_neg (by rintro ⟨g1, g2⟩; linarith),
      if_neg (by rintro ⟨g1, g2⟩; linarith),
      if_neg (by rintro ⟨g1, g2⟩; linarith)]

/-- Witness for C6: band 0 at `val = 0` over `[0, 1/2]`. -/
theorem claim_C6_witness : get_stone_color 0 0 (1 / 2) = ColorName.Void := by
  have h := claim_C6 0 0 (1 / 2) (by norm_num)
  exact h.1 ⟨le_refl 0, by norm_num⟩

/-- Claim C7: the floor ramp divides `[min, max]` into 8 bands of width
`(max - min) / 8` and maps only bands 0, 2, 3, 4, 5 (to `Stone6`,
`Stone5`, `Stone4`, `Stone3`, `Stone2`); band 1, bands 6 and above, and
values below `min` all fall through to the catch-all `Void`, so the
function is total. -/
theorem claim_C7 (val mn mx : ℚ) (h : mn < mx) :
    (mn ≤ val ∧ val < mn + (mx - mn) / 8 →
      get_floor_color val mn mx = ColorName.Stone6) ∧
    (mn + (mx - mn) / 8 ≤ val ∧ val < mn + 2 * ((mx - mn) / 8) →
      get_floor_color val mn mx = ColorName.Void) ∧
    (mn + 2 * ((mx - mn) / 8) ≤ val ∧ val < mn + 3 * ((mx - mn) / 8) →
      get_floor_color val mn mx = ColorName.Stone5) ∧
    (mn + 3 * ((mx - mn) / 8) ≤ val ∧ val < mn + 4 * ((mx - mn) / 8) →
      get_floor_color val mn mx = ColorName.Stone4) ∧
    (mn + 4 * ((mx - mn) / 8) ≤ val ∧ val < mn + 5 * ((mx - mn) / 8) →
      get_floor_color val mn mx = ColorName.Stone3) ∧
    (mn + 5 * ((mx - mn) / 8) ≤ val ∧ val < mn + 6 * ((mx - mn) / 8) →
      get_floor_color val mn mx = ColorName.Stone2) ∧
    (mn + 6 * ((mx - mn) / 8) ≤ val →
      get_floor_color val mn mx = ColorName.Void) ∧
    (val < mn → get_floor_color val mn mx = ColorName.Void) := by
  have hs : 0 < (mx - mn) / 8 := div_pos (sub_pos.mpr h) (by norm_num)
  refine ⟨?_, ?_, ?_, ?_, ?_, ?_, ?_, ?_⟩
  · intro hv
    simp only [get_floor_color]
    rw [if_pos hv]
  · rintro ⟨h1, h2⟩
    simp only [get_floor_color]
    rw [if_neg (by rintro ⟨g1, g2⟩; linarith),
      if_neg (by rintro ⟨g1, g2⟩; linarith),
      if_neg (by rintro ⟨g1, g2⟩; linarith),
      if_neg (by rintro ⟨g1, g2⟩; linarith),
      if_neg (by rintro ⟨g1, g2⟩; linarith)]
  · rintro ⟨h1, h2⟩
    simp only [get_floor_color]
    rw [if_neg (by rintro ⟨g1, g2⟩; linarith), if_pos ⟨h1, h2⟩]
  · rintro ⟨h1, h2⟩
    simp only [get_floor_color]
    rw [if_neg (by rintro ⟨g1, g2⟩; linarith),
      if_neg (by rintro ⟨g1, g2⟩; linarith), if_pos ⟨h1, h2⟩]
  · rintro ⟨h1, h2⟩
    simp only [get_floor_color]
    rw [if_neg (by rintro ⟨g1, g2⟩; linarith),
      if_neg (by rintro ⟨g1, g2⟩; linarith),
      if_neg (by rintro ⟨g1, g2⟩; linarith), if_pos ⟨h1, h2⟩]
  · rintro ⟨h1, h2⟩
    simp only [get_floor_color]
    rw [if_neg (by rintro ⟨g1, g2⟩; linarith),
      if_neg (by rintro ⟨g1, g2⟩; linarith),
      if_neg (by rintro ⟨g1, g2⟩; linarith),
      if_neg (by rintro ⟨g1, g2⟩; linarith), if_pos ⟨h1, h2⟩]
  · intro h6
    simp only [get_floor_color]
    rw [if_neg (by rintro ⟨g1, g2⟩; linarith),
      if_neg (by rintro ⟨g1, g2⟩; linarith),
      if_neg (by rintro ⟨g1, g2⟩; linarith),
      if_neg (by rintro ⟨g1, g2⟩; linarith),
      if_neg (by rintro ⟨g1, g2⟩; linarith)]
  · intro hb
    simp only [get_floor_color]
    rw [if_neg (by rintro ⟨g1, g2⟩; linarith),
      if_neg (by rintro ⟨g1, g2⟩; linarith),
      if_neg (by rintro ⟨g1, g2⟩; linarith),
      if_neg (by rintro ⟨g1, g2⟩; linarith),
      if_neg (by rintro ⟨g1, g2⟩; linarith)]

/-- Witness for C7: band 0 at `val = 2/5` over `[2/5, 1]`. -/
theorem claim_C7_witness : get_floor_color (2 / 5) (2 / 5) 1 = ColorName.Stone6 := by
  have h := claim_C7 (2 / 5) (2 / 5) 1 (by norm_num)
  exact h.1 ⟨le_refl _, by norm_num⟩

/-! ### Per-cell classification -/

/-- Full case analysis of the tile produced for one cell: the stored
`val` is the absolute noise sample, `pos` and `depth` echo the cell, and
the glyph and color follow the 0.6 threshold with the liquid override. -/
theorem mkTile_classify (noise : ℕ → ℚ → ℚ → ℚ → ℚ)
    (seed lt x y z : ℕ) (v : ℚ)
    (hv : v = |noise seed (x : ℚ) (y : ℚ) ((wmul z lt : ℕ) : ℚ)|) :
    (mkTile noise seed lt x y z).val = v ∧
    (mkTile noise seed lt x y z).pos = (f32ofNat x, f32ofNat y) ∧
    (mkTile noise seed lt x y z).depth = z ∧
    (v < 3 / 5 →
      (get_stone_color v 0 (1 / 2) = ColorName.Void →
        (mkTile noise seed lt x y z).glyph = '≈' ∧
        (mkTile noise seed lt x y z).color = ColorName.Blue) ∧
      (get_stone_color v 0 (1 / 2) ≠ ColorName.Void →
        (mkTile noise seed lt x y z).glyph = '#' ∧
        (mkTile noise seed lt x y z).color = get_stone_color v 0 (1 / 2))) ∧
    (3 / 5 ≤ v →
      (mkTile noise seed lt x y z).glyph = '.' ∧
      (mkTile noise seed lt x y z).color = get_floor_color v (2 / 5) 1) := by
  have habs : |v| = v := by rw [hv, abs_abs]
  simp only [mkTile, ← hv, habs, ge_iff_le]
  by_cases hge : 3 / 5 ≤ v
  · rw [if_pos hge]
    rw [if_neg (by
      rintro ⟨-, hg⟩
      have hg' : ('.' : Char) = '#' := hg
      exact absurd hg' (by decide))]
    refine ⟨rfl, rfl, rfl, fun hlt => absurd hge (by linarith), fun _ => ⟨rfl, rfl⟩⟩
  · rw [if_neg hge]
    by_cases hvoid : get_stone_color v 0 (1 / 2) = ColorName.Void
    · rw [if_pos ⟨hvoid, rfl⟩]
      exact ⟨rfl, rfl, rfl,
        fun _ => ⟨fun _ => ⟨rfl, rfl⟩, fun hne => absurd hvoid hne⟩,
        fun hge2 => absurd hge2 hge⟩
    · rw [if_neg (by rintro ⟨hg, -⟩; exact hvoid hg)]
      exact ⟨rfl, rfl, rfl,
        fun _ => ⟨fun hvd => absurd hvd hvoid, fun _ => ⟨rfl, rfl⟩⟩,
        fun hge2 => absurd hge2 hge⟩

/-- Lookup in a fold of key-insertions yields either an inserted value or
a value of the initial map. -/
theorem mfind_foldl_minsert_mem {β : Type} (f : ℕ → β) (keyf : ℕ → ℕ)
    (zs : List ℕ) (init : List (ℕ × β)) (k : ℕ) (v : β)
    (h : mfind (zs.foldl (fun m z => minsert m (keyf z) (f z)) init) k = some v) :
    (∃ z ∈ zs, v = f z) ∨ mfind init k = some v := by
  induction zs generalizing init with
  | nil => exact Or.inr h
  | cons z tl ih =>
      simp only [List.foldl_cons] at h
      rcases ih _ h with ⟨z', hz', hv⟩ | hfind
      · exact Or.inl ⟨z', List.mem_cons_of_mem _ hz', hv⟩
      · by_cases hk : k = keyf z
        · subst hk
          rw [mfind_minsert_self] at hfind
          exact Or.inl ⟨z, List.mem_cons_self _ _, (Option.some.inj hfind).symm⟩
        · rw [mfind_minsert_ne _ _ _ _ hk] at hfind
          exact Or.inr hfind

/-- Every slice found in a generated chunk (built from an empty map) is
the row-major slice of some depth in the generated range. -/
theorem generate_map_chunk_mem (noise : ℕ → ℚ → ℚ → ℚ → ℚ)
    (x_min x_max y_min y_max z_min z_max cs lt seed k : ℕ) (sl : Slice)
    (h : mfind (generate_map_chunk noise [] x_min x_max y_min y_max z_min
          z_max cs lt seed) k = some sl) :
    ∃ zz ∈ List.range' z_min (z_max - z_min),
      sl = genSlice noise seed lt x_min x_max y_min y_max zz := by
  unfold generate_map_chunk at h
  have hm := mfind_foldl_minsert_mem
    (fun zz => genSlice noise seed lt x_min x_max y_min y_max zz)
    (fun zz => zz % cs)
    ((List.range' z_min (z_max - z_min)).reverse) [] k sl h
  rcases hm with ⟨zz, hzz, hv⟩ | hbad
  · exact ⟨zz, List.mem_reverse.mp hzz, hv⟩
  · simp [mfind_nil] at hbad

/-- Claim C4: every cell of a generated chunk stores as `val` the
absolute noise sample at `(x, y, z * level_thickness)` and is classified
by the 0.6 threshold — solid rock `#` with the stone-ramp color over
`[0, 0.5]` when `val < 0.6`, floor `.` with the floor-ramp color over
`[0.4, 1]` when `val ≥ 0.6` — except that a rock tile whose stone-ramp
color is the void band is overridden to the liquid glyph with fixed
`Blue`. -/
theorem claim_C4 (noise : ℕ → ℚ → ℚ → ℚ → ℚ)
    (seed lt x_min x_max y_min y_max z_min z_max cs k : ℕ) (sl : Slice)
    (hsl : mfind (generate_map_chunk noise [] x_min x_max y_min y_max
            z_min z_max cs lt seed) k = some sl)
    (t : Tile) (ht : t ∈ sl) :
    (∃ xx yy zz : ℕ, t = mkTile noise seed lt xx yy zz ∧
      t.val = |noise seed (xx : ℚ) (yy : ℚ) ((wmul zz lt : ℕ) : ℚ)| ∧
      t.pos = (f32ofNat xx, f32ofNat yy) ∧ t.depth = zz) ∧
    (t.val < 3 / 5 →
      (get_stone_color t.val 0 (1 / 2) = ColorName.Void →
        t.glyph = '≈' ∧ t.color = ColorName.Blue) ∧
      (get_stone_color t.val 0 (1 / 2) ≠ ColorName.Void →
        t.glyph = '#' ∧ t.color = get_stone_color t.val 0 (1 / 2))) ∧
    (3 / 5 ≤ t.val →
      t.glyph = '.' ∧ t.color = get_floor_color t.val (2 / 5) 1) := by
  obtain ⟨zz, hzz, hslice⟩ := generate_map_chunk_mem noise x_min x_max y_min
    y_max z_min z_max cs lt seed k sl hsl
  subst hslice
  unfold genSlice at ht
  rw [List.mem_flatMap] at ht
  obtain ⟨yy, hyy, hty⟩ := ht
  rw [List.mem_map] at hty
  obtain ⟨xx, hxx, htx⟩ := hty
  subst htx
  have hc := mkTile_classify noise seed lt xx yy zz
    (|noise seed (xx : ℚ) (yy : ℚ) ((wmul zz lt : ℕ) : ℚ)|) rfl
  obtain ⟨hval, hpos, hdepth, hstone, hfloor⟩ := hc
  rw [← hval] at hstone hfloor
  exact ⟨⟨xx, yy, zz, rfl, hval, hpos, hdepth⟩, hstone, hfloor⟩

/-- Witness for C4: in a 1-cell chunk generated with constant sample 0.7
the produced tile is a floor tile colored by the floor ramp. -/
theorem claim_C4_witness :
    (mkTile constNoise 7 30 0 0 0).glyph = '.' ∧
    (mkTile constNoise 7 30 0 0 0).color =
      get_floor_color (mkTile constNoise 7 30 0 0 0).val (2 / 5) 1 := by
  have hval : (mkTile constNoise 7 30 0 0 0).val = 7 / 10 := by
    have h := (mkTile_classify constNoise 7 30 0 0 0
      (|constNoise 7 ((0 : ℕ) : ℚ) ((0 : ℕ) : ℚ) ((wmul 0 30 : ℕ) : ℚ)|) rfl).1
    rw [h]
    simp only [constNoise]
    rw [abs_of_nonneg (by norm_num)]
  have hsl : mfind (generate_map_chunk constNoise [] 0 1 0 1 0 1 1 30 7) 0 =
      some (genSlice constNoise 7 30 0 1 0 1 0) := by
    show mfind (((List.range' 0 (1 - 0)).reverse).foldl _ []) 0 = _
    norm_num [List.range']
    exact mfind_minsert_self [] (0 % 1) (genSlice constNoise 7 30 0 1 0 1 0)
  have hmem : mkTile constNoise 7 30 0 0 0 ∈ genSlice constNoise 7 30 0 1 0 1 0 := by
    norm_num [genSlice, List.range']
  have h := claim_C4 constNoise 7 30 0 1 0 1 0 1 1 0
    (genSlice constNoise 7 30 0 1 0 1 0) hsl
    (mkTile constNoise 7 30 0 0 0) hmem
  exact h.2.2 (by rw [hval]; norm_num)

/-! ### Key-uniqueness infrastructure -/

theorem mfind_eq_none_iff {α : Type} (l : List (ℕ × α)) (k : ℕ) :
    mfind l k = none ↔ ∀ p ∈ l, p.1 ≠ k := by
  simp [mfind, List.find?_eq_none]

theorem map_replace_id {α : Type} (l : List (ℕ × α)) (k : ℕ) (v : α)
    (h : ∀ p ∈ l, p.1 ≠ k) :
    l.map (fun p => if p.1 = k then (k, v) else p) = l := by
  induction l with
  | nil => rfl
  | cons p tl ih =>
      rw [List.map_cons, if_neg (h p (List.mem_cons_self _ _)),
        ih (fun q hq => h q (List.mem_cons_of_mem _ hq))]

theorem map_replace_eq_self {α : Type} (l : List (ℕ × α)) (k : ℕ) (v : α)
    (hnd : NodupKeys l) (h : mfind l k = some v) :
    l.map (fun p => if p.1 = k then (k, v) else p) = l := by
  induction l with
  | nil => cases h
  | cons p tl ih =>
      unfold NodupKeys at hnd
      rw [List.map_cons, List.nodup_cons] at hnd
      rw [mfind_cons] at h
      by_cases hp : p.1 = k
      · rw [if_pos hp] at h
        have hv : p.2 = v := Option.some.inj h
        have hpk : ((k : ℕ), v) = p := by rw [← hp, ← hv]
        rw [List.map_cons, if_pos hp]
        refine List.cons_eq_cons.mpr ⟨hpk, ?_⟩
        apply map_replace_id
        intro q hq hqk
        apply hnd.1
        rw [hp, ← hqk]
        exact List.mem_map_of_mem _ hq
      · rw [if_neg hp] at h
        rw [List.map_cons, if_neg hp]
        congr 1
        exact ih hnd.2 h

theorem minsert_noop {α : Type} (l : List (ℕ × α)) (k : ℕ) (v : α)
    (hnd : NodupKeys l) (h : mfind l k = some v) : minsert l k v = l := by
  unfold minsert
  rw [if_pos ((mcontains_eq_true_iff l k).mpr ⟨v, h⟩)]
  exact map_replace_eq_self l k v hnd h

theorem minsert_nodupKeys {α : Type} (l : List (ℕ × α)) (k : ℕ) (v : α)
    (hnd : NodupKeys l) : NodupKeys (minsert l k v) := by
  unfold minsert
  by_cases hc : mcontains l k
  · rw [if_pos hc]
    unfold NodupKeys at *
    have hkeys : (l.map (fun p => if p.1 = k then (k, v) else p)).map Prod.fst
        = l.map Prod.fst := by
      rw [List.map_map]
      apply List.map_congr_left
      intro p hp
      by_cases hpk : p.1 = k
      · simp [Function.comp, hpk]
      · simp [Function.comp, hpk]
    rw [hkeys]
    exact hnd
  · rw [if_neg hc]
    unfold NodupKeys at *
    rw [List.map_append, List.nodup_append]
    have hn : mfind l k = none := by
      rw [← mcontains_eq_false_iff]
      exact Bool.not_eq_true _ ▸ eq_false_of_ne_true hc
    rw [mfind_eq_none_iff] at hn
    refine ⟨hnd, by simp, ?_⟩
    intro a ha hak
    simp at hak
    obtain ⟨p, hp, rfl⟩ := List.mem_map.mp ha
    exact hn p hp hak

theorem mem_minsert {α : Type} (l : List (ℕ × α)) (k : ℕ) (v : α)
    (q : ℕ × α) (h : q ∈ minsert l k v) : q = (k, v) ∨ q ∈ l := by
  unfold minsert at h
  by_cases hc : mcontains l k
  · rw [if_pos hc] at h
    obtain ⟨p, hp, hq⟩ := List.mem_map.mp h
    by_cases hpk : p.1 = k
    · rw [if_pos hpk] at hq
      exact Or.inl hq.symm
    · rw [if_neg hpk] at hq
      exact Or.inr (hq ▸ hp)
  · rw [if_neg hc] at h
    rcases List.mem_append.mp h with hl | hr
    · exact Or.inr hl
    · exact Or.inl (List.mem_singleton.mp hr)

/-! ### Row-major slice indexing -/

theorem range'_flatMap_get {β : Type} (f : ℕ → ℕ → β) (a b w h dx dy : ℕ)
    (hdx : dx < w) (hdy : dy < h) :
    ((List.range' a h).flatMap
      (fun yy => (List.range' b w).map (fun xx => f xx yy))).get? (dx + dy * w)
      = some (f (b + dx) (a + dy)) := by
  induction h generalizing a dy with
  | zero => omega
  | succ n ih =>
      rw [List.range'_succ, List.flatMap_cons]
      cases dy with
      | zero =>
          rw [List.get?_append (by simp; omega)]
          simp only [Nat.zero_mul, Nat.add_zero]
          rw [List.get?_map, List.get?_range' b 1 hdx]
          simp
      | succ m =>
          have hwle : w ≤ (m + 1) * w := Nat.le_mul_of_pos_left w (Nat.succ_pos m)
          rw [List.get?_append_right (by simp; omega)]
          have hlen : ((List.range' b w).map (fun xx => f xx a)).length = w := by
            simp
          rw [hlen]
          have hidx : dx + (m + 1) * w - w = dx + m * w := by
            have : (m + 1) * w = m * w + w := by ring
            omega
          rw [hidx]
          have := ih (a + 1) m (by omega)
          rw [this]
          congr 2
          omega

theorem genSlice_get (noise : ℕ → ℚ → ℚ → ℚ → ℚ) (seed lt xm ym cs z dx dy : ℕ)
    (hdx : dx < cs) (hdy : dy < cs) :
    (genSlice noise seed lt xm (xm + cs) ym (ym + cs) z).get? (dx + dy * cs)
      = some (mkTile noise seed lt (xm + dx) (ym + dy) z) := by
  unfold genSlice
  have h1 : xm + cs - xm = cs := by omega
  have h2 : ym + cs - ym = cs := by omega
  rw [h1, h2]
  exact range'_flatMap_get (fun xx yy => mkTile noise seed lt xx yy z)
    ym xm cs cs dx dy hdx hdy

theorem genSlice_length (noise : ℕ → ℚ → ℚ → ℚ → ℚ) (seed lt xm ym cs z : ℕ) :
    (genSlice noise seed lt xm (xm + cs) ym (ym + cs) z).length = cs * cs := by
  unfold genSlice
  have h1 : xm + cs - xm = cs := by omega
  have h2 : ym + cs - ym = cs := by omega
  rw [h1, h2, List.length_flatMap]
  have hconst : ∀ l : List ℕ, (l.map (fun _ => cs)).sum = l.length * cs := by
    intro l
    induction l with
    | nil => simp
    | cons a tl ih => simp [ih]; ring
  simp only [Function.comp_def, List.length_map, List.length_range']
  rw [hconst]
  simp [List.length_range']

/-! ### Chunk lookup in a generated chunk -/

theorem mfind_foldl_minsert_nokey {β : Type} (f : ℕ → β) (keyf : ℕ → ℕ)
    (zs : List ℕ) (init : List (ℕ × β)) (k : ℕ)
    (h : ∀ w ∈ zs, keyf w ≠ k) :
    mfind (zs.foldl (fun m w => minsert m (keyf w) (f w)) init) k
      = mfind init k := by
  induction zs generalizing init with
  | nil => rfl
  | cons w tl ih =>
      rw [List.foldl_cons, ih _ (fun w' hw' => h w' (List.mem_cons_of_mem _ hw'))]
      exact mfind_minsert_ne _ _ _ _
        (fun hk => h w (List.mem_cons_self _ _) hk.symm)

theorem mfind_foldl_minsert_eq {β : Type} (f : ℕ → β) (keyf : ℕ → ℕ)
    (zs : List ℕ) (init : List (ℕ × β)) (z : ℕ) :
    z ∈ zs → zs.Nodup → (∀ z' ∈ zs, keyf z' = keyf z → z' = z) →
    mfind init (keyf z) = none →
    mfind (zs.foldl (fun m w => minsert m (keyf w) (f w)) init) (keyf z)
      = some (f z) := by
  induction zs generalizing init with
  | nil => intro hz _ _ _; cases hz
  | cons w tl ih =>
      intro hz hnd huniq hinit
      rw [List.foldl_cons]
      rcases List.mem_cons.mp hz with rfl | hztl
      · have hnk : ∀ w' ∈ tl, keyf w' ≠ keyf z := by
          intro w' hw' hkeq
          have hww := huniq w' (List.mem_cons_of_mem _ hw') hkeq
          exact (List.nodup_cons.mp hnd).1 (hww ▸ hw')
        rw [mfind_foldl_minsert_nokey _ _ _ _ _ hnk]
        exact mfind_minsert_self _ _ _
      · have hw : keyf w ≠ keyf z := by
          intro hkeq
          have hwz := huniq w (List.mem_cons_self _ _) hkeq
          exact (List.nodup_cons.mp hnd).1 (hwz ▸ hztl)
        apply ih _ hztl (List.nodup_cons.mp hnd).2
          (fun z' hz' => huniq z' (List.mem_cons_of_mem _ hz'))
        rw [mfind_minsert_ne _ _ _ _ (fun h' => hw h'.symm)]
        exact hinit

theorem generate_map_chunk_lookup (noise : ℕ → ℚ → ℚ → ℚ → ℚ)
    (xm ym zm cs lt seed : ℕ) (hcs : 0 < cs) (hdvd : cs ∣ zm)
    (r : ℕ) (hr : r < cs) :
    mfind (generate_map_chunk noise [] xm (xm + cs) ym (ym + cs) zm (zm + cs)
        cs lt seed) r
      = some (genSlice noise seed lt xm (xm + cs) ym (ym + cs) (zm + r)) := by
  unfold generate_map_chunk
  obtain ⟨q, hq⟩ := hdvd
  have hkey : (zm + r) % cs = r := by
    rw [hq, Nat.mul_add_mod]
    exact Nat.mod_eq_of_lt hr
  have hlen : zm + cs - zm = cs := by omega
  rw [hlen]
  have hmem : zm + r ∈ (List.range' zm cs).reverse :=
    List.mem_reverse.mpr (List.mem_range'_1.mpr ⟨Nat.le_add_right _ _, by omega⟩)
  have hnd : ((List.range' zm cs).reverse).Nodup :=
    List.nodup_reverse.mpr (List.nodup_range' _ _)
  have huniq : ∀ z' ∈ (List.range' zm cs).reverse,
      z' % cs = (zm + r) % cs → z' = zm + r := by
    intro z' hz' hk
    have hm := List.mem_range'_1.mp (List.mem_reverse.mp hz')
    have hz'e : z' = zm + (z' - zm) := by omega
    have h1 : (zm + (z' - zm)) % cs = z' - zm := by
      rw [hq, Nat.mul_add_mod]
      exact Nat.mod_eq_of_lt (by omega)
    rw [hz'e, h1, hkey] at hk
    omega
  have hres := mfind_foldl_minsert_eq
    (fun w => genSlice noise seed lt xm (xm + cs) ym (ym + cs) w)
    (fun w => w % cs)
    ((List.range' zm cs).reverse) [] (zm + r) hmem hnd huniq rfl
  have hres' : mfind (List.foldl (fun m z => minsert m (z % cs)
      (genSlice noise seed lt xm (xm + cs) ym (ym + cs) z)) []
      (List.range' zm cs).reverse) ((zm + r) % cs)
      = some (genSlice noise seed lt xm (xm + cs) ym (ym + cs) (zm + r)) := hres
  rw [hkey] at hres'
  exact hres'

/-- Total coverage of local depth indices: the generated chunk has a
slice of the full `chunk_size * chunk_size` length for every local index
below `chunk_size`. -/
theorem generate_map_chunk_total (noise : ℕ → ℚ → ℚ → ℚ → ℚ)
    (xm ym zm cs lt seed : ℕ) (hcs : 0 < cs) (hdvd : cs ∣ zm)
    (r : ℕ) (hr : r < cs) :
    ∃ sl, mfind (generate_map_chunk noise [] xm (xm + cs) ym (ym + cs)
        zm (zm + cs) cs lt seed) r = some sl ∧ sl.length = cs * cs :=
  ⟨_, generate_map_chunk_lookup noise xm ym zm cs lt seed hcs hdvd r hr,
    genSlice_length noise seed lt xm ym cs (zm + r)⟩

/-! ### Counting and membership lemmas for the nested store -/

theorem mfind_mem {α : Type} (l : List (ℕ × α)) (k : ℕ) (v : α)
    (h : mfind l k = some v) : (k, v) ∈ l := by
  unfold mfind at h
  obtain ⟨p, hp, hmap⟩ : ∃ p, l.find? (fun p => p.1 == k) = some p ∧ p.2 = v := by
    cases hf : l.find? (fun p => p.1 == k) with
    | none => rw [hf] at h; cases h
    | some p => rw [hf] at h; exact ⟨p, rfl, Option.some.inj h⟩
  have hmem := List.mem_of_find?_eq_some hp
  have hkey := List.find?_some hp
  have hpe : p = (k, v) := Prod.ext (by simpa using hkey) hmap
  exact hpe ▸ hmem

theorem minsert_eq_append {α : Type} (l : List (ℕ × α)) (k : ℕ) (v : α)
    (h : mcontains l k = false) : minsert l k v = l ++ [(k, v)] := by
  unfold minsert
  rw [if_neg (by rw [h]; exact Bool.false_ne_true)]

theorem sum_map_replace {α : Type} (l : List (ℕ × α)) (k : ℕ) (v w : α)
    (F : α → ℕ) (hnd : NodupKeys l) (hw : mfind l k = some w) :
    ((l.map (fun p => if p.1 = k then (k, v) else p)).map (fun p => F p.2)).sum
        + F w
      = (l.map (fun p => F p.2)).sum + F v := by
  induction l with
  | nil => cases hw
  | cons p tl ih =>
      unfold NodupKeys at hnd
      rw [List.map_cons, List.nodup_cons] at hnd
      rw [mfind_cons] at hw
      by_cases hp : p.1 = k
      · rw [if_pos hp] at hw
        have hv : p.2 = w := Option.some.inj hw
        have hid : tl.map (fun p => if p.1 = k then (k, v) else p) = tl := by
          apply map_replace_id
          intro q hq hqk
          apply hnd.1
          rw [hp, ← hqk]
          exact List.mem_map_of_mem _ hq
        rw [List.map_cons, if_pos hp, hid]
        simp [← hv]
        omega
      · rw [if_neg hp] at hw
        rw [List.map_cons, if_neg hp]
        simp only [List.map_cons, List.sum_cons]
        have := ih hnd.2 hw
        omega

theorem sum_map_append {α : Type} (l : List (ℕ × α)) (k : ℕ) (v : α)
    (F : α → ℕ) :
    ((l ++ [(k, v)]).map (fun p => F p.2)).sum
      = (l.map (fun p => F p.2)).sum + F v := by
  simp

theorem minsert_sum_found {α : Type} (l : List (ℕ × α)) (k : ℕ) (v w : α)
    (F : α → ℕ) (hnd : NodupKeys l) (hw : mfind l k = some w) :
    ((minsert l k v).map (fun p => F p.2)).sum + F w
      = (l.map (fun p => F p.2)).sum + F v := by
  unfold minsert
  rw [if_pos ((mcontains_eq_true_iff l k).mpr ⟨w, hw⟩)]
  exact sum_map_replace l k v w F hnd hw

theorem minsert_sum_new {α : Type} (l : List (ℕ × α)) (k : ℕ) (v : α)
    (F : α → ℕ) (h : mcontains l k = false) :
    ((minsert l k v).map (fun p => F p.2)).sum
      = (l.map (fun p => F p.2)).sum + F v := by
  rw [minsert_eq_append l k v h]
  exact sum_map_append l k v F

/-! ### Bounds and center arithmetic -/

theorem get_chunck_boundries_eq (x y z m : ℕ) (hm : 0 < m)
    (hx : x + m < U32) (hy : y + m < U32) (hz : z + m < U32) :
    get_chunck_boundries x y z m =
      (x / m * m, x / m * m + m, y / m * m, y / m * m + m,
       z / m * m, z / m * m + m) := by
  have hax : wadd x 1 = x + 1 := wadd_eq_of_lt (by omega)
  have hay : wadd y 1 = y + 1 := wadd_eq_of_lt (by omega)
  have haz : wadd z 1 = z + 1 := wadd_eq_of_lt (by omega)
  have hrx := round_to_boundries_eq (x + 1) m (by omega) hm (by omega)
  have hry := round_to_boundries_eq (y + 1) m (by omega) hm (by omega)
  have hrz := round_to_boundries_eq (z + 1) m (by omega) hm (by omega)
  simp only [get_chunck_boundries, hax, hay, haz, hrx, hry, hrz,
    Nat.add_sub_cancel]

theorem wmul_eq_of_lt {a b : ℕ} (h : a * b < U32) : wmul a b = a * b := by
  simp only [wmul]
  exact Nat.mod_eq_of_lt h

theorem index_small (x y cs : ℕ) (hcs : 0 < cs) (hcs2 : cs * cs ≤ U32) :
    wadd (x % cs) (wmul (y % cs) cs) = x % cs + (y % cs) * cs ∧
    x % cs + (y % cs) * cs < cs * cs := by
  have hxm : x % cs < cs := Nat.mod_lt _ hcs
  have hym : y % cs < cs := Nat.mod_lt _ hcs
  have hsucc : (y % cs + 1) * cs ≤ cs * cs := Nat.mul_le_mul_right cs hym
  have he : (y % cs + 1) * cs = (y % cs) * cs + cs := by ring
  have hlt : x % cs + (y % cs) * cs < cs * cs := by omega
  have hwm : wmul (y % cs) cs = (y % cs) * cs := wmul_eq_of_lt (by
    simp only [U32] at *
    omega)
  rw [hwm]
  exact ⟨wadd_eq_of_lt (by simp only [U32] at *; omega), hlt⟩

theorem genChunkFor_eq_generate (noise : ℕ → ℚ → ℚ → ℚ → ℚ)
    (cs lt seed x y z : ℕ) :
    genChunkFor noise cs lt seed (centerKeyOf cs (x, y, z))
      = generate_map_chunk noise [] (x / cs * cs) (x / cs * cs + cs)
          (y / cs * cs) (y / cs * cs + cs) (z / cs * cs) (z / cs * cs + cs)
          cs lt seed := by
  unfold genChunkFor centerKeyOf
  have h1 : x / cs * cs + cs / 2 - cs / 2 = x / cs * cs := by omega
  have h2 : y / cs * cs + cs / 2 - cs / 2 = y / cs * cs := by omega
  have h3 : z / cs * cs + cs / 2 - cs / 2 = z / cs * cs := by omega
  dsimp only
  rw [h1, h2, h3]

theorem lookupChunk_good (noise : ℕ → ℚ → ℚ → ℚ → ℚ) (g : GameMap)
    (hg : GoodStore noise g) (a b c : ℕ) (ch : Chunk)
    (h : lookupChunk g.map (a, b, c) = some ch) :
    ch = genChunkFor noise g.chunk_size g.level_thickness g.random_seed
      (a, b, c) := by
  unfold lookupChunk at h
  dsimp only at h
  cases hx : mfind g.map a with
  | none => rw [hx] at h; cases h
  | some xm =>
      rw [hx] at h
      dsimp only at h
      cases hy : mfind xm b with
      | none => rw [hy] at h; cases h
      | some ym =>
          rw [hy] at h
          dsimp only at h
          have hmx := mfind_mem _ _ _ hx
          have hmy := mfind_mem _ _ _ hy
          have hmz := mfind_mem _ _ _ h
          exact ((hg.2 (a, xm) hmx).2 (b, ym) hmy).2 (c, ch) hmz

theorem minsert_sum_found_len (l : YMap) (k : ℕ) (v w : ZMap)
    (hnd : NodupKeys l) (hw : mfind l k = some w) :
    ((minsert l k v).map (fun p => p.2.length)).sum + w.length
      = (l.map (fun p => p.2.length)).sum + v.length :=
  minsert_sum_found l k v w List.length hnd hw

theorem minsert_sum_found_cnt (l : Store) (k : ℕ) (v w : YMap)
    (hnd : NodupKeys l) (hw : mfind l k = some w) :
    ((minsert l k v).map (fun p => (p.2.map (fun py => py.2.length)).sum)).sum
        + (w.map (fun py => py.2.length)).sum
      = (l.map (fun p => (p.2.map (fun py => py.2.length)).sum)).sum
        + (v.map (fun py => py.2.length)).sum := by
  have h := minsert_sum_found l k v w
    (fun w' => (w'.map (fun py => py.2.length)).sum) hnd hw
  simpa using h

theorem minsert_sum_new_len (l : YMap) (k : ℕ) (v : ZMap)
    (h : mcontains l k = false) :
    ((minsert l k v).map (fun p => p.2.length)).sum
      = (l.map (fun p => p.2.length)).sum + v.length :=
  minsert_sum_new l k v List.length h

theorem minsert_sum_new_cnt (l : Store) (k : ℕ) (v : YMap)
    (h : mcontains l k = false) :
    ((minsert l k v).map (fun p => (p.2.map (fun py => py.2.length)).sum)).sum
      = (l.map (fun p => (p.2.map (fun py => py.2.length)).sum)).sum
        + (v.map (fun py => py.2.length)).sum := by
  have hh := minsert_sum_new l k v
    (fun w' => (w'.map (fun py => py.2.length)).sum) h
  simpa using hh

theorem nodupKeys_nil {α : Type} : NodupKeys ([] : List (ℕ × α)) :=
  List.nodup_nil

theorem mcontains_nil {α : Type} (k : ℕ) :
    mcontains ([] : List (ℕ × α)) k = false := rfl

theorem bool_eq_false {b : Bool} (h : ¬ b = true) : b = false := by
  cases b
  · rfl
  · exact absurd rfl h

theorem get_tile_spec (noise : ℕ → ℚ → ℚ → ℚ → ℚ) (g : GameMap) (x y z : ℕ)
    (hg : GoodStore noise g) (hcs : 0 < g.chunk_size)
    (hcs2 : g.chunk_size * g.chunk_size ≤ U32)
    (hx : x + g.chunk_size < U32) (hy : y + g.chunk_size < U32)
    (hz : z + g.chunk_size < U32) :
    ∃ m2 : Store,
      get_tile noise g x y z = some
        (mkTile noise g.random_seed g.level_thickness x y z,
         { g with map := m2 },
         (lookupChunk g.map (centerKeyOf g.chunk_size (x, y, z))).isNone) ∧
      GoodStore noise { g with map := m2 } ∧
      (∀ k : ℕ × ℕ × ℕ, lookupChunk m2 k =
        if k = centerKeyOf g.chunk_size (x, y, z)
        then some (genChunkFor noise g.chunk_size g.level_thickness
          g.random_seed (centerKeyOf g.chunk_size (x, y, z)))
        else lookupChunk g.map k) ∧
      chunkCount m2 = chunkCount g.map +
        (if lookupChunk g.map (centerKeyOf g.chunk_size (x, y, z)) = none
         then 1 else 0) ∧
      (lookupChunk g.map (centerKeyOf g.chunk_size (x, y, z)) ≠ none →
        m2 = g.map) := by
  have hkeydef : centerKeyOf g.chunk_size (x, y, z) =
      (x / g.chunk_size * g.chunk_size + g.chunk_size / 2,
       y / g.chunk_size * g.chunk_size + g.chunk_size / 2,
       z / g.chunk_size * g.chunk_size + g.chunk_size / 2) := rfl
  have hb := get_chunck_boundries_eq x y z g.chunk_size hcs hx hy hz
  have hdvx := Nat.div_mul_le_self x g.chunk_size
  have hdvy := Nat.div_mul_le_self y g.chunk_size
  have hdvz := Nat.div_mul_le_self z g.chunk_size
  have hwcx : wadd (x / g.chunk_size * g.chunk_size) (g.chunk_size / 2)
      = x / g.chunk_size * g.chunk_size + g.chunk_size / 2 :=
    wadd_eq_of_lt (by omega)
  have hwcy : wadd (y / g.chunk_size * g.chunk_size) (g.chunk_size / 2)
      = y / g.chunk_size * g.chunk_size + g.chunk_size / 2 :=
    wadd_eq_of_lt (by omega)
  have hwcz : wadd (z / g.chunk_size * g.chunk_size) (g.chunk_size / 2)
      = z / g.chunk_size * g.chunk_size + g.chunk_size / 2 :=
    wadd_eq_of_lt (by omega)
  have hidx := index_small x y g.chunk_size hcs hcs2
  have hgen := genChunkFor_eq_generate noise g.chunk_size g.level_thickness
    g.random_seed x y z
  rw [hkeydef] at hgen
  have hxmlt : x % g.chunk_size < g.chunk_size := Nat.mod_lt _ hcs
  have hymlt : y % g.chunk_size < g.chunk_size := Nat.mod_lt _ hcs
  have hzmlt : z % g.chunk_size < g.chunk_size := Nat.mod_lt _ hcs
  have hslice := generate_map_chunk_lookup noise
    (x / g.chunk_size * g.chunk_size) (y / g.chunk_size * g.chunk_size)
    (z / g.chunk_size * g.chunk_size) g.chunk_size g.level_thickness
    g.random_seed hcs ⟨z / g.chunk_size, by ring⟩ (z % g.chunk_size) hzmlt
  rw [Nat.div_add_mod' z g.chunk_size] at hslice
  have hget := genSlice_get noise g.random_seed g.level_thickness
    (x / g.chunk_size * g.chunk_size) (y / g.chunk_size * g.chunk_size)
    g.chunk_size z (x % g.chunk_size) (y % g.chunk_size) hxmlt hymlt
  rw [Nat.div_add_mod' x g.chunk_size, Nat.div_add_mod' y g.chunk_size] at hget
  have hndmp : NodupKeys g.map := hg.1
  by_cases hmx : mcontains g.map
      (x / g.chunk_size * g.chunk_size + g.chunk_size / 2) = true
  · obtain ⟨xm, hxm⟩ := (mcontains_eq_true_iff _ _).mp hmx
    have hxmem := mfind_mem _ _ _ hxm
    have hndxm : NodupKeys xm := (hg.2 _ hxmem).1
    by_cases hmy : mcontains xm
        (y / g.chunk_size * g.chunk_size + g.chunk_size / 2) = true
    · obtain ⟨ym, hym⟩ := (mcontains_eq_true_iff _ _).mp hmy
      have hymem := mfind_mem _ _ _ hym
      have hndym : NodupKeys ym := ((hg.2 _ hxmem).2 _ hymem).1
      by_cases hmz : mcontains ym
          (z / g.chunk_size * g.chunk_size + g.chunk_size / 2) = true
      · -- full hit
        obtain ⟨ch, hch⟩ := (mcontains_eq_true_iff _ _).mp hmz
        have hinv : ch = genChunkFor noise g.chunk_size g.level_thickness
            g.random_seed
            (x / g.chunk_size * g.chunk_size + g.chunk_size / 2,
             y / g.chunk_size * g.chunk_size + g.chunk_size / 2,
             z / g.chunk_size * g.chunk_size + g.chunk_size / 2) :=
          ((hg.2 _ hxmem).2 _ hymem).2 _ (mfind_mem _ _ _ hch)
        have hlook : lookupChunk g.map
            (x / g.chunk_size * g.chunk_size + g.chunk_size / 2,
             y / g.chunk_size * g.chunk_size + g.chunk_size / 2,
             z / g.chunk_size * g.chunk_size + g.chunk_size / 2)
            = some ch := by
          unfold lookupChunk
          dsimp only
          rw [hxm]
          dsimp only
          rw [hym]
          dsimp only
          exact hch
        refine ⟨g.map, ?_, ?_, ?_, ?_, ?_⟩
        · rw [hkeydef, hlook]
          simp only [get_tile, hb]
          rw [hwcx, hwcy, hwcz, if_pos hmx, hxm]
          dsimp only
          rw [if_pos hmy, hym]
          dsimp only
          rw [if_pos hmz]
          dsimp only
          rw [hch]
          dsimp only
          rw [hinv, hgen, hslice]
          dsimp only
          rw [hidx.1, hget]
          dsimp only
          rw [minsert_noop xm _ ym hndxm hym,
            minsert_noop g.map _ xm hndmp hxm]
          rfl
        · exact hg
        · intro k
          rw [hkeydef]
          by_cases hk : k =
              (x / g.chunk_size * g.chunk_size + g.chunk_size / 2,
               y / g.chunk_size * g.chunk_size + g.chunk_size / 2,
               z / g.chunk_size * g.chunk_size + g.chunk_size / 2)
          · rw [if_pos hk, hk, hlook, hinv]
          · rw [if_neg hk]
        · rw [hkeydef, hlook]
          simp
        · intro _
          rfl
      · -- x and y hit, z miss
        have hmzf : mcontains ym
            (z / g.chunk_size * g.chunk_size + g.chunk_size / 2) = false :=
          bool_eq_false hmz
        have hchn : mfind ym
            (z / g.chunk_size * g.chunk_size + g.chunk_size / 2) = none :=
          (mcontains_eq_false_iff _ _).mp hmzf
        have hlookn : lookupChunk g.map
            (x / g.chunk_size * g.chunk_size + g.chunk_size / 2,
             y / g.chunk_size * g.chunk_size + g.chunk_size / 2,
             z / g.chunk_size * g.chunk_size + g.chunk_size / 2)
            = none := by
          unfold lookupChunk
          dsimp only
          rw [hxm]
          dsimp only
          rw [hym]
          dsimp only
          exact hchn
        refine ⟨minsert g.map
            (x / g.chunk_size * g.chunk_size + g.chunk_size / 2)
            (minsert xm (y / g.chunk_size * g.chunk_size + g.chunk_size / 2)
              (minsert ym (z / g.chunk_size * g.chunk_size + g.chunk_size / 2)
                (genChunkFor noise g.chunk_size g.level_thickness g.random_seed
                  (x / g.chunk_size * g.chunk_size + g.chunk_size / 2,
                   y / g.chunk_size * g.chunk_size + g.chunk_size / 2,
                   z / g.chunk_size * g.chunk_size + g.chunk_size / 2)))),
          ?_, ?_, ?_, ?_, ?_⟩
        · rw [hkeydef, hlookn]
          simp only [get_tile, hb]
          rw [hwcx, hwcy, hwcz, if_pos hmx, hxm]
          dsimp only
          rw [if_pos hmy, hym]
          dsimp only
          rw [if_neg (by rw [hmzf]; exact Bool.false_ne_true)]
          dsimp only
          rw [mfind_minsert_self]
          dsimp only
          rw [hslice]
          dsimp only
          rw [hidx.1, hget]
          dsimp only
          rw [hgen]
          rfl
        · refine ⟨minsert_nodupKeys _ _ _ hndmp, ?_⟩
          intro px hpx
          rcases mem_minsert _ _ _ _ hpx with rfl | hpx'
          · refine ⟨minsert_nodupKeys _ _ _ hndxm, ?_⟩
            intro py hpy
            rcases mem_minsert _ _ _ _ hpy with rfl | hpy'
            · refine ⟨minsert_nodupKeys _ _ _ hndym, ?_⟩
              intro pz hpz
              rcases mem_minsert _ _ _ _ hpz with rfl | hpz'
              · rfl
              · exact ((hg.2 _ hxmem).2 _ hymem).2 _ hpz'
            · exact (hg.2 _ hxmem).2 _ hpy'
          · exact hg.2 _ hpx'
        · intro k
          rw [hkeydef]
          by_cases hk : k =
              (x / g.chunk_size * g.chunk_size + g.chunk_size / 2,
               y / g.chunk_size * g.chunk_size + g.chunk_size / 2,
               z / g.chunk_size * g.chunk_size + g.chunk_size / 2)
          · rw [if_pos hk, hk]
            unfold lookupChunk
            dsimp only
            rw [mfind_minsert_self]
            dsimp only
            rw [mfind_minsert_self]
            dsimp only
            rw [mfind_minsert_self]
          · rw [if_neg hk]
            obtain ⟨a, bb, c⟩ := k
            by_cases h1 : a =
                x / g.chunk_size * g.chunk_size + g.chunk_size / 2
            · subst h1
              by_cases h2 : bb =
                  y / g.chunk_size * g.chunk_size + g.chunk_size / 2
              · subst h2
                have h3 : c ≠
                    z / g.chunk_size * g.chunk_size + g.chunk_size / 2 :=
                  fun hc => hk (by rw [hc])
                unfold lookupChunk
                dsimp only
                rw [mfind_minsert_self]
                dsimp only
                rw [mfind_minsert_self]
                dsimp only
                rw [mfind_minsert_ne _ _ _ _ h3, hxm]
                dsimp only
                rw [hym]
              · unfold lookupChunk
                dsimp only
                rw [mfind_minsert_self]
                dsimp only
                rw [mfind_minsert_ne _ _ _ _ h2, hxm]
            · unfold lookupChunk
              dsimp only
              rw [mfind_minsert_ne _ _ _ _ h1]
        · rw [hkeydef, hlookn, if_pos rfl]
          have hstep1 : (minsert ym
              (z / g.chunk_size * g.chunk_size + g.chunk_size / 2)
              (genChunkFor noise g.chunk_size g.level_thickness g.random_seed
                (x / g.chunk_size * g.chunk_size + g.chunk_size / 2,
                 y / g.chunk_size * g.chunk_size + g.chunk_size / 2,
                 z / g.chunk_size * g.chunk_size + g.chunk_size / 2))).length
              = ym.length + 1 := by
            rw [minsert_eq_append _ _ _ hmzf]
            simp
          have hstep2 := minsert_sum_found_len xm
            (y / g.chunk_size * g.chunk_size + g.chunk_size / 2)
            (minsert ym (z / g.chunk_size * g.chunk_size + g.chunk_size / 2)
              (genChunkFor noise g.chunk_size g.level_thickness g.random_seed
                (x / g.chunk_size * g.chunk_size + g.chunk_size / 2,
                 y / g.chunk_size * g.chunk_size + g.chunk_size / 2,
                 z / g.chunk_size * g.chunk_size + g.chunk_size / 2)))
            ym hndxm hym
          have hstep3 := minsert_sum_found_cnt g.map
            (x / g.chunk_size * g.chunk_size + g.chunk_size / 2)
            (minsert xm (y / g.chunk_size * g.chunk_size + g.chunk_size / 2)
              (minsert ym (z / g.chunk_size * g.chunk_size + g.chunk_size / 2)
                (genChunkFor noise g.chunk_size g.level_thickness g.random_seed
                  (x / g.chunk_size * g.chunk_size + g.chunk_size / 2,
                   y / g.chunk_size * g.chunk_size + g.chunk_size / 2,
                   z / g.chunk_size * g.chunk_size + g.chunk_size / 2))))
            xm hndmp hxm
          simp only [chunkCount]
          omega
        · intro hcontra
          rw [hkeydef, hlookn] at hcontra
          exact absurd rfl hcontra
    · -- x hit, y miss
      have hmyf : mcontains xm
          (y / g.chunk_size * g.chunk_size + g.chunk_size / 2) = false :=
        bool_eq_false hmy
      have hymn : mfind xm
          (y / g.chunk_size * g.chunk_size + g.chunk_size / 2) = none :=
        (mcontains_eq_false_iff _ _).mp hmyf
      have hlookn : lookupChunk g.map
          (x / g.chunk_size * g.chunk_size + g.chunk_size / 2,
           y / g.chunk_size * g.chunk_size + g.chunk_size / 2,
           z / g.chunk_size * g.chunk_size + g.chunk_size / 2)
          = none := by
        unfold lookupChunk
        dsimp only
        rw [hxm]
        dsimp only
        rw [hymn]
      refine ⟨minsert g.map
          (x / g.chunk_size * g.chunk_size + g.chunk_size / 2)
          (minsert (minsert xm
              (y / g.chunk_size * g.chunk_size + g.chunk_size / 2) [])
            (y / g.chunk_size * g.chunk_size + g.chunk_size / 2)
            (minsert [] (z / g.chunk_size * g.chunk_size + g.chunk_size / 2)
              (genChunkFor noise g.chunk_size g.level_thickness g.random_seed
                (x / g.chunk_size * g.chunk_size + g.chunk_size / 2,
                 y / g.chunk_size * g.chunk_size + g.chunk_size / 2,
                 z / g.chunk_size * g.chunk_size + g.chunk_size / 2)))),
        ?_, ?_, ?_, ?_, ?_⟩
      · rw [hkeydef, hlookn]
        simp only [get_tile, hb]
        rw [hwcx, hwcy, hwcz, if_pos hmx, hxm]
        dsimp only
        rw [if_neg (by rw [hmyf]; exact Bool.false_ne_true)]
        rw [mfind_minsert_self]
        dsimp only
        rw [if_neg (by rw [mcontains_nil]; exact Bool.false_ne_true)]
        dsimp only
        rw [mfind_minsert_self]
        dsimp only
        rw [hslice]
        dsimp only
        rw [hidx.1, hget]
        dsimp only
        rw [hgen]
        rfl
      · refine ⟨minsert_nodupKeys _ _ _ hndmp, ?_⟩
        intro px hpx
        rcases mem_minsert _ _ _ _ hpx with rfl | hpx'
        · refine ⟨minsert_nodupKeys _ _ _ (minsert_nodupKeys _ _ _ hndxm), ?_⟩
          intro py hpy
          rcases mem_minsert _ _ _ _ hpy with rfl | hpy'
          · refine ⟨minsert_nodupKeys _ _ _ nodupKeys_nil, ?_⟩
            intro pz hpz
            dsimp only at hpz
            rcases mem_minsert _ _ _ _ hpz with rfl | hpz'
            · rfl
            · exact absurd hpz' (List.not_mem_nil _)
          · rcases mem_minsert _ _ _ _ hpy' with rfl | hpy''
            · exact ⟨nodupKeys_nil, fun pz hpz => absurd hpz (List.not_mem_nil _)⟩
            · exact (hg.2 _ hxmem).2 _ hpy''
        · exact hg.2 _ hpx'
      · intro k
        rw [hkeydef]
        by_cases hk : k =
            (x / g.chunk_size * g.chunk_size + g.chunk_size / 2,
             y / g.chunk_size * g.chunk_size + g.chunk_size / 2,
             z / g.chunk_size * g.chunk_size + g.chunk_size / 2)
        · rw [if_pos hk, hk]
          unfold lookupChunk
          dsimp only
          rw [mfind_minsert_self]
          dsimp only
          rw [mfind_minsert_self]
          dsimp only
          rw [mfind_minsert_self]
        · rw [if_neg hk]
          obtain ⟨a, bb, c⟩ := k
          by_cases h1 : a =
              x / g.chunk_size * g.chunk_size + g.chunk_size / 2
          · subst h1
            by_cases h2 : bb =
                y / g.chunk_size * g.chunk_size + g.chunk_size / 2
            · subst h2
              have h3 : c ≠
                  z / g.chunk_size * g.chunk_size + g.chunk_size / 2 :=
                fun hc => hk (by rw [hc])
              unfold lookupChunk
              dsimp only
              rw [mfind_minsert_self]
              dsimp only
              rw [mfind_minsert_self]
              dsimp only
              rw [mfind_minsert_ne _ _ _ _ h3, hxm]
              dsimp only
              rw [hymn, mfind_nil]
            · unfold lookupChunk
              dsimp only
              rw [mfind_minsert_self]
              dsimp only
              rw [mfind_minsert_ne _ _ _ _ h2, mfind_minsert_ne _ _ _ _ h2,
                hxm]
          · unfold lookupChunk
            dsimp only
            rw [mfind_minsert_ne _ _ _ _ h1]
      · rw [hkeydef, hlookn, if_pos rfl]
        have hstep1 : (minsert ([] : ZMap)
            (z / g.chunk_size * g.chunk_size + g.chunk_size / 2)
            (genChunkFor noise g.chunk_size g.level_thickness g.random_seed
              (x / g.chunk_size * g.chunk_size + g.chunk_size / 2,
               y / g.chunk_size * g.chunk_size + g.chunk_size / 2,
               z / g.chunk_size * g.chunk_size + g.chunk_size / 2))).length
            = 1 := by
          rw [minsert_eq_append _ _ _ (mcontains_nil _)]
          simp
        have hstep2 := minsert_sum_found_len
          (minsert xm (y / g.chunk_size * g.chunk_size + g.chunk_size / 2) [])
          (y / g.chunk_size * g.chunk_size + g.chunk_size / 2)
          (minsert [] (z / g.chunk_size * g.chunk_size + g.chunk_size / 2)
            (genChunkFor noise g.chunk_size g.level_thickness g.random_seed
              (x / g.chunk_size * g.chunk_size + g.chunk_size / 2,
               y / g.chunk_size * g.chunk_size + g.chunk_size / 2,
               z / g.chunk_size * g.chunk_size + g.chunk_size / 2)))
          [] (minsert_nodupKeys _ _ _ hndxm) (mfind_minsert_self _ _ _)
        have hstep2b := minsert_sum_new_len xm
          (y / g.chunk_size * g.chunk_size + g.chunk_size / 2) [] hmyf
        have hstep3 := minsert_sum_found_cnt g.map
          (x / g.chunk_size * g.chunk_size + g.chunk_size / 2)
          (minsert (minsert xm
              (y / g.chunk_size * g.chunk_size + g.chunk_size / 2) [])
            (y / g.chunk_size * g.chunk_size + g.chunk_size / 2)
            (minsert [] (z / g.chunk_size * g.chunk_size + g.chunk_size / 2)
              (genChunkFor noise g.chunk_size g.level_thickness g.random_seed
                (x / g.chunk_size * g.chunk_size + g.chunk_size / 2,
                 y / g.chunk_size * g.chunk_size + g.chunk_size / 2,
                 z / g.chunk_size * g.chunk_size + g.chunk_size / 2))))
          xm hndmp hxm
        simp only [chunkCount]
        simp only [List.map_nil, List.sum_nil, List.length_nil]
          at hstep2 hstep2b
        omega
      · intro hcontra
        rw [hkeydef, hlookn] at hcontra
        exact absurd rfl hcontra
  · -- x miss
    have hmxf : mcontains g.map
        (x / g.chunk_size * g.chunk_size + g.chunk_size / 2) = false :=
      bool_eq_false hmx
    have hxmn : mfind g.map
        (x / g.chunk_size * g.chunk_size + g.chunk_size / 2) = none :=
      (mcontains_eq_false_iff _ _).mp hmxf
    have hlookn : lookupChunk g.map
        (x / g.chunk_size * g.chunk_size + g.chunk_size / 2,
         y / g.chunk_size * g.chunk_size + g.chunk_size / 2,
         z / g.chunk_size * g.chunk_size + g.chunk_size / 2)
        = none := by
      unfold lookupChunk
      dsimp only
      rw [hxmn]
    refine ⟨minsert (minsert g.map
        (x / g.chunk_size * g.chunk_size + g.chunk_size / 2) [])
        (x / g.chunk_size * g.chunk_size + g.chunk_size / 2)
        (minsert (minsert []
            (y / g.chunk_size * g.chunk_size + g.chunk_size / 2) [])
          (y / g.chunk_size * g.chunk_size + g.chunk_size / 2)
          (minsert [] (z / g.chunk_size * g.chunk_size + g.chunk_size / 2)
            (genChunkFor noise g.chunk_size g.level_thickness g.random_seed
              (x / g.chunk_size * g.chunk_size + g.chunk_size / 2,
               y / g.chunk_size * g.chunk_size + g.chunk_size / 2,
               z / g.chunk_size * g.chunk_size + g.chunk_size / 2)))),
      ?_, ?_, ?_, ?_, ?_⟩
    · rw [hkeydef, hlookn]
      simp only [get_tile, hb]
      rw [hwcx, hwcy, hwcz,
        if_neg (by rw [hmxf]; exact Bool.false_ne_true), mfind_minsert_self]
      dsimp only
      rw [if_neg (by rw [mcontains_nil]; exact Bool.false_ne_true),
        mfind_minsert_self]
      dsimp only
      rw [if_neg (by rw [mcontains_nil]; exact Bool.false_ne_true),
        mfind_minsert_self]
      dsimp only
      rw [hslice]
      dsimp only
      rw [hidx.1, hget]
      dsimp only
      rw [hgen]
      rfl
    · refine ⟨minsert_nodupKeys _ _ _ (minsert_nodupKeys _ _ _ hndmp), ?_⟩
      intro px hpx
      rcases mem_minsert _ _ _ _ hpx with rfl | hpx'
      · refine ⟨minsert_nodupKeys _ _ _ (minsert_nodupKeys _ _ _ nodupKeys_nil), ?_⟩
        intro py hpy
        dsimp only at hpy
        rcases mem_minsert _ _ _ _ hpy with rfl | hpy'
        · refine ⟨minsert_nodupKeys _ _ _ nodupKeys_nil, ?_⟩
          intro pz hpz
          dsimp only at hpz
          rcases mem_minsert _ _ _ _ hpz with rfl | hpz'
          · rfl
          · exact absurd hpz' (List.not_mem_nil _)
        · rcases mem_minsert _ _ _ _ hpy' with rfl | hpy''
          · exact ⟨nodupKeys_nil, fun pz hpz => absurd hpz (List.not_mem_nil _)⟩
          · exact absurd hpy'' (List.not_mem_nil _)
      · rcases mem_minsert _ _ _ _ hpx' with rfl | hpx''
        · exact ⟨nodupKeys_nil, fun py hpy => absurd hpy (List.not_mem_nil _)⟩
        · exact hg.2 _ hpx''
    · intro k
      rw [hkeydef]
      by_cases hk : k =
          (x / g.chunk_size * g.chunk_size + g.chunk_size / 2,
           y / g.chunk_size * g.chunk_size + g.chunk_size / 2,
           z / g.chunk_size * g.chunk_size + g.chunk_size / 2)
      · rw [if_pos hk, hk]
        unfold lookupChunk
        dsimp only
        rw [mfind_minsert_self]
        dsimp only
        rw [mfind_minsert_self]
        dsimp only
        rw [mfind_minsert_self]
      · rw [if_neg hk]
        obtain ⟨a, bb, c⟩ := k
        by_cases h1 : a =
            x / g.chunk_size * g.chunk_size + g.chunk_size / 2
        · subst h1
          by_cases h2 : bb =
              y / g.chunk_size * g.chunk_size + g.chunk_size / 2
          · subst h2
            have h3 : c ≠
                z / g.chunk_size * g.chunk_size + g.chunk_size / 2 :=
              fun hc => hk (by rw [hc])
            unfold lookupChunk
            dsimp only
            rw [mfind_minsert_self]
            dsimp only
            rw [mfind_minsert_self]
            dsimp only
            rw [mfind_minsert_ne _ _ _ _ h3, hxmn, mfind_nil]
          · unfold lookupChunk
            dsimp only
            rw [mfind_minsert_self]
            dsimp only
            rw [mfind_minsert_ne _ _ _ _ h2, mfind_minsert_ne _ _ _ _ h2,
              hxmn, mfind_nil]
        · unfold lookupChunk
          dsimp only
          rw [mfind_minsert_ne _ _ _ _ h1, mfind_minsert_ne _ _ _ _ h1]
    · rw [hkeydef, hlookn, if_pos rfl]
      have hstep1 : (minsert ([] : ZMap)
          (z / g.chunk_size * g.chunk_size + g.chunk_size / 2)
          (genChunkFor noise g.chunk_size g.level_thickness g.random_seed
            (x / g.chunk_size * g.chunk_size + g.chunk_size / 2,
             y / g.chunk_size * g.chunk_size + g.chunk_size / 2,
             z / g.chunk_size * g.chunk_size + g.chunk_size / 2))).length
          = 1 := by
        rw [minsert_eq_append _ _ _ (mcontains_nil _)]
        simp
      have hstep2 := minsert_sum_found_len
        (minsert ([] : YMap) (y / g.chunk_size * g.chunk_size + g.chunk_size / 2) [])
        (y / g.chunk_size * g.chunk_size + g.chunk_size / 2)
        (minsert [] (z / g.chunk_size * g.chunk_size + g.chunk_size / 2)
          (genChunkFor noise g.chunk_size g.level_thickness g.random_seed
            (x / g.chunk_size * g.chunk_size + g.chunk_size / 2,
             y / g.chunk_size * g.chunk_size + g.chunk_size / 2,
             z / g.chunk_size * g.chunk_size + g.chunk_size / 2)))
        [] (minsert_nodupKeys _ _ _ nodupKeys_nil) (mfind_minsert_self _ _ _)
      have hstep2b := minsert_sum_new_len ([] : YMap)
        (y / g.chunk_size * g.chunk_size + g.chunk_size / 2) []
        (mcontains_nil _)
      have hstep3 := minsert_sum_found_cnt
        (minsert g.map (x / g.chunk_size * g.chunk_size + g.chunk_size / 2) [])
        (x / g.chunk_size * g.chunk_size + g.chunk_size / 2)
        (minsert (minsert ([] : YMap)
            (y / g.chunk_size * g.chunk_size + g.chunk_size / 2) [])
          (y / g.chunk_size * g.chunk_size + g.chunk_size / 2)
          (minsert [] (z / g.chunk_size * g.chunk_size + g.chunk_size / 2)
            (genChunkFor noise g.chunk_size g.level_thickness g.random_seed
              (x / g.chunk_size * g.chunk_size + g.chunk_size / 2,
               y / g.chunk_size * g.chunk_size + g.chunk_size / 2,
               z / g.chunk_size * g.chunk_size + g.chunk_size / 2))))
        [] (minsert_nodupKeys _ _ _ hndmp) (mfind_minsert_self _ _ _)
      have hstep3b := minsert_sum_new_cnt g.map
        (x / g.chunk_size * g.chunk_size + g.chunk_size / 2) [] hmxf
      simp only [chunkCount]
      simp only [List.map_nil, List.sum_nil, List.length_nil]
        at hstep2 hstep2b hstep3 hstep3b
      omega
    · intro hcontra
      rw [hkeydef, hlookn] at hcontra
      exact absurd rfl hcontra

/-- Claim C1: on any well-formed store, a repeated `get_tile` call at the
same coordinates returns the value-identical Tile, leaves the store
unchanged, and does not invoke chunk generation again (the chunk is found
cached). -/
theorem claim_C1 (noise : ℕ → ℚ → ℚ → ℚ → ℚ) (g : GameMap) (x y z : ℕ)
    (hg : GoodStore noise g) (hcs : 0 < g.chunk_size)
    (hcs2 : g.chunk_size * g.chunk_size ≤ U32)
    (hx : x + g.chunk_size < U32) (hy : y + g.chunk_size < U32)
    (hz : z + g.chunk_size < U32) :
    ∃ t g' gen, get_tile noise g x y z = some (t, g', gen) ∧
      get_tile noise g' x y z = some (t, g', false) := by
  obtain ⟨m2, h1, hgood, hlook, hcnt, hhit⟩ :=
    get_tile_spec noise g x y z hg hcs hcs2 hx hy hz
  have hkey := hlook (centerKeyOf g.chunk_size (x, y, z))
  rw [if_pos rfl] at hkey
  obtain ⟨m2', h1', hgood', hlook', hcnt', hhit'⟩ :=
    get_tile_spec noise { g with map := m2 } x y z hgood hcs hcs2 hx hy hz
  have hne : lookupChunk m2 (centerKeyOf g.chunk_size (x, y, z)) ≠ none := by
    rw [hkey]
    exact Option.some_ne_none _
  have hm2' : m2' = m2 := hhit' hne
  rw [hm2'] at h1'
  refine ⟨mkTile noise g.random_seed g.level_thickness x y z,
    { g with map := m2 },
    (lookupChunk g.map (centerKeyOf g.chunk_size (x, y, z))).isNone, h1, ?_⟩
  rw [h1']
  dsimp only
  rw [hkey]
  rfl

/-- Witness for C1: both calls on a small fresh store. -/
theorem claim_C1_witness :
    ∃ t g' gen, get_tile zeroNoise tinyMap 100 100 10 = some (t, g', gen) ∧
      get_tile zeroNoise g' 100 100 10 = some (t, g', false) :=
  claim_C1 zeroNoise tinyMap 100 100 10
    ⟨nodupKeys_nil, fun _ hpx => absurd hpx (List.not_mem_nil _)⟩
    (by decide) (by decide) (by decide) (by decide) (by decide)

/-- Running a sequence of calls from a store whose chunk keys are exactly
the finite set `S` leaves the store with exactly the chunks of `S` plus
the distinct chunks visited by the calls. -/
theorem runCalls_count (noise : ℕ → ℚ → ℚ → ℚ → ℚ)
    (calls : List (ℕ × ℕ × ℕ)) :
    ∀ (g : GameMap) (S : Finset (ℕ × ℕ × ℕ)) (g' : GameMap),
      GoodStore noise g → 0 < g.chunk_size →
      g.chunk_size * g.chunk_size ≤ U32 →
      (∀ c ∈ calls, c.1 + g.chunk_size < U32 ∧ c.2.1 + g.chunk_size < U32 ∧
        c.2.2 + g.chunk_size < U32) →
      chunkCount g.map = S.card →
      (∀ k, lookupChunk g.map k ≠ none ↔ k ∈ S) →
      runCalls noise g calls = some g' →
      chunkCount g'.map =
        (S ∪ (calls.map (centerKeyOf g.chunk_size)).toFinset).card := by
  induction calls with
  | nil =>
      intro g S g' _ _ _ _ hcard hmem hrun
      have hgg : g = g' := Option.some.inj hrun
      subst hgg
      simpa using hcard
  | cons c rest ih =>
      intro g S g' hg hcs hcs2 hok hcard hmem hrun
      obtain ⟨hcx, hcy, hcz⟩ := hok c (List.mem_cons_self _ _)
      obtain ⟨m2, h1, hgood, hlook, hcnt, hhit⟩ :=
        get_tile_spec noise g c.1 c.2.1 c.2.2 hg hcs hcs2 hcx hcy hcz
      rw [runCalls, h1] at hrun
      have hkeyc : centerKeyOf g.chunk_size (c.1, c.2.1, c.2.2)
          = centerKeyOf g.chunk_size c := by
        rcases c with ⟨a, b, d⟩
        rfl
      have hcard' : chunkCount m2 =
          (insert (centerKeyOf g.chunk_size c) S).card := by
        rw [hcnt]
        by_cases hkS : centerKeyOf g.chunk_size c ∈ S
        · rw [Finset.insert_eq_self.mpr hkS]
          have : lookupChunk g.map (centerKeyOf g.chunk_size (c.1, c.2.1, c.2.2))
              ≠ none := by
            rw [hkeyc]
            exact (hmem _).mpr hkS
          rw [if_neg (fun hn => this hn)]
          omega
        · have : lookupChunk g.map (centerKeyOf g.chunk_size (c.1, c.2.1, c.2.2))
              = none := by
            by_contra hn
            exact hkS (hkeyc ▸ (hmem _).mp hn)
          rw [if_pos this, Finset.card_insert_of_not_mem hkS]
          omega
      have hmem' : ∀ k, lookupChunk m2 k ≠ none ↔
          k ∈ insert (centerKeyOf g.chunk_size c) S := by
        intro k
        rw [hlook k, Finset.mem_insert]
        by_cases hk : k = centerKeyOf g.chunk_size (c.1, c.2.1, c.2.2)
        · rw [if_pos hk]
          simp [hk, hkeyc]
        · rw [if_neg hk]
          rw [hkeyc] at hk
          constructor
          · intro h
            exact Or.inr ((hmem k).mp h)
          · rintro (h | h)
            · exact absurd h hk
            · exact (hmem k).mpr h
      have hres := ih { g with map := m2 } (insert (centerKeyOf g.chunk_size c) S)
        g' hgood hcs hcs2
        (fun c' hc' => hok c' (List.mem_cons_of_mem _ hc'))
        hcard' hmem' hrun
      rw [hres]
      congr 1
      rw [List.map_cons, List.toFinset_cons, Finset.union_insert,
        Finset.insert_union]

/-- Claim C5: starting from a store holding no chunks, any finite
sequence of `get_tile` calls leaves the store holding exactly as many
chunks as there are distinct chunk keys among the calls, independent of
order or repetition; and no call ever mutates or removes a chunk that is
already present (it only inserts missing entries). -/
theorem claim_C5 :
    (∀ (noise : ℕ → ℚ → ℚ → ℚ → ℚ) (g : GameMap)
      (calls : List (ℕ × ℕ × ℕ)) (g' : GameMap),
      g.map = [] → GoodStore noise g → 0 < g.chunk_size →
      g.chunk_size * g.chunk_size ≤ U32 →
      (∀ c ∈ calls, c.1 + g.chunk_size < U32 ∧ c.2.1 + g.chunk_size < U32 ∧
        c.2.2 + g.chunk_size < U32) →
      runCalls noise g calls = some g' →
      chunkCount g'.map =
        ((calls.map (centerKeyOf g.chunk_size)).toFinset).card) ∧
    (∀ (noise : ℕ → ℚ → ℚ → ℚ → ℚ) (g : GameMap) (x y z : ℕ)
      (t : Tile) (g' : GameMap) (gen : Bool),
      GoodStore noise g → 0 < g.chunk_size →
      g.chunk_size * g.chunk_size ≤ U32 → x + g.chunk_size < U32 →
      y + g.chunk_size < U32 → z + g.chunk_size < U32 →
      get_tile noise g x y z = some (t, g', gen) →
      ∀ k c, lookupChunk g.map k = some c → lookupChunk g'.map k = some c) := by
  constructor
  · intro noise g calls g' hmap hg hcs hcs2 hok hrun
    have h := runCalls_count noise calls g ∅ g' hg hcs hcs2 hok
      (by rw [hmap]; rfl)
      (fun k => by
        rw [hmap]
        constructor
        · intro hn
          exact absurd rfl hn
        · intro hn
          exact absurd hn (Finset.not_mem_empty _))
      hrun
    rw [h, Finset.empty_union]
  · intro noise g x y z t g' gen hg hcs hcs2 hx hy hz hget k c hold
    obtain ⟨m2, h1, hgood, hlook, hcnt, hhit⟩ :=
      get_tile_spec noise g x y z hg hcs hcs2 hx hy hz
    rw [h1] at hget
    have heq := Option.some.inj hget
    simp only [Prod.mk.injEq] at heq
    obtain ⟨-, hg'e, -⟩ := heq
    rw [← hg'e]
    dsimp only
    rw [hlook k]
    by_cases hk : k = centerKeyOf g.chunk_size (x, y, z)
    · rw [if_pos hk]
      rcases k with ⟨a, b, d⟩
      have := lookupChunk_good noise g hg a b d c hold
      rw [this, hk]
    · rw [if_neg hk]
      exact hold

/-- Witness for C5: two repeated calls on a fresh tiny store produce
exactly one chunk. -/
theorem claim_C5_witness :
    ∃ g2, runCalls zeroNoise tinyMap [(100, 100, 10), (100, 100, 10)]
        = some g2 ∧
      chunkCount g2.map =
        (([(100, 100, 10), (100, 100, 10)].map
          (centerKeyOf tinyMap.chunk_size)).toFinset).card := by
  have hnew : GoodStore zeroNoise tinyMap :=
    ⟨nodupKeys_nil, fun _ hpx => absurd hpx (List.not_mem_nil _)⟩
  obtain ⟨m2, h1, hgood, hlook, hcnt, hhit⟩ :=
    get_tile_spec zeroNoise tinyMap 100 100 10 hnew
      (by decide) (by decide) (by decide) (by decide) (by decide)
  obtain ⟨m2', h1', hgood', hlook', hcnt', hhit'⟩ :=
    get_tile_spec zeroNoise { tinyMap with map := m2 } 100 100 10 hgood
      (by decide : (0 : ℕ) < 1) (by decide : 1 * 1 ≤ U32)
      (by decide : 100 + 1 < U32) (by decide : 100 + 1 < U32)
      (by decide : 10 + 1 < U32)
  have hrun : runCalls zeroNoise tinyMap [(100, 100, 10), (100, 100, 10)]
      = some { { tinyMap with map := m2 } with map := m2' } := by
    rw [runCalls, h1]
    dsimp only
    rw [runCalls, h1']
    dsimp only
    rw [runCalls]
  exact ⟨_, hrun,
    claim_C5.1 zeroNoise tinyMap [(100, 100, 10), (100, 100, 10)] _
      rfl hnew (by decide) (by decide)
      (by intro c hc; fin_cases hc <;> exact ⟨by decide, by decide, by decide⟩)
      hrun⟩

/-- The binary32 rounding of an integer is exact up to `2 ^ 24`. -/
theorem f32round_eq_self (n : ℕ) (h : n ≤ 2 ^ 24) : f32round n = n := by
  rcases Nat.lt_or_ge n (2 ^ 24) with hlt | hge
  · simp only [f32round, f32ulp]
    rw [if_pos hlt]
    simp [Nat.mod_one]
  · have hn : n = 2 ^ 24 := by omega
    subst hn
    decide

/-- Claim C8 (amended: the returned Tile's `pos` holds the `f32` cast of
the coordinates, which equals `(x, y)` exactly only for coordinates up to
`2 ^ 24`; `claim_C8_counterexample` shows an in-range coordinate where
the cast is lossy).  The end-to-end scenario resolves as specified — with
`chunk_size = 64`, querying `(100, 100, 10)` computes chunk bounds
`x:[64,128)`, `y:[64,128)`, `z:[0,64)` and centers `(96, 96, 32)` — and
in general the Tile returned by `get_tile` is the generated cell of the
queried coordinate: its `pos` equals the `f32` cast of `(x, y)` (exact
for coordinates up to `2 ^ 24`) and its `depth` equals `z`, because the
slice stored under `z mod chunk_size` is indexed row-major at
`(x mod chunk_size) + (y mod chunk_size) * chunk_size`. -/
theorem claim_C8 :
    get_chunck_boundries 100 100 10 64 = (64, 128, 64, 128, 0, 64) ∧
    centerKeyOf 64 (100, 100, 10) = (96, 96, 32) ∧
    (∀ n : ℕ, n ≤ 2 ^ 24 → f32ofNat n = (n : ℚ)) ∧
    (∀ (noise : ℕ → ℚ → ℚ → ℚ → ℚ) (g : GameMap) (x y z : ℕ),
      GoodStore noise g → 0 < g.chunk_size →
      g.chunk_size * g.chunk_size ≤ U32 → x + g.chunk_size < U32 →
      y + g.chunk_size < U32 → z + g.chunk_size < U32 →
      ∃ g' gen, get_tile noise g x y z =
          some (mkTile noise g.random_seed g.level_thickness x y z, g', gen) ∧
        (mkTile noise g.random_seed g.level_thickness x y z).pos
          = (f32ofNat x, f32ofNat y) ∧
        (mkTile noise g.random_seed g.level_thickness x y z).depth = z) := by
  refine ⟨by decide, by decide, ?_, ?_⟩
  · intro n hn
    unfold f32ofNat
    rw [f32round_eq_self n hn]
  · intro noise g x y z hg hcs hcs2 hx hy hz
    obtain ⟨m2, h1, -, -, -, -⟩ :=
      get_tile_spec noise g x y z hg hcs hcs2 hx hy hz
    have hc := mkTile_classify noise g.random_seed g.level_thickness x y z
      (|noise g.random_seed (x : ℚ) (y : ℚ)
        ((wmul z g.level_thickness : ℕ) : ℚ)|) rfl
    exact ⟨_, _, h1, hc.2.1, hc.2.2.1⟩

/-- Witness for C8: the general part discharged on a small fresh store at
the scenario coordinates `(100, 100, 10)`, where the cast is exact. -/
theorem claim_C8_witness :
    ∃ g' gen, get_tile zeroNoise tinyMap 100 100 10 =
        some (mkTile zeroNoise tinyMap.random_seed tinyMap.level_thickness
          100 100 10, g', gen) ∧
      (mkTile zeroNoise tinyMap.random_seed tinyMap.level_thickness
        100 100 10).pos = ((100 : ℚ), (100 : ℚ)) ∧
      (mkTile zeroNoise tinyMap.random_seed tinyMap.level_thickness
        100 100 10).depth = 10 := by
  obtain ⟨g', gen, h1, hpos, hdep⟩ :=
    claim_C8.2.2.2 zeroNoise tinyMap 100 100 10
      ⟨nodupKeys_nil, fun _ hpx => absurd hpx (List.not_mem_nil _)⟩
      (by decide) (by decide) (by decide) (by decide) (by decide)
  refine ⟨g', gen, h1, ?_, hdep⟩
  rw [hpos, claim_C8.2.2.1 100 (by norm_num)]
  norm_num

/-- Counterexample for C8 as stated: the coordinate `x = 16777217` lies
in the declared range (below `max_chuncks_x * chunk_size = 20000000`),
yet the Tile returned for it carries `pos.1 = 16777216`, the `f32`
rounding of the coordinate, not the coordinate itself. -/
theorem claim_C8_counterexample :
    16777217 < GameMap.new.max_chuncks_x * GameMap.new.chunk_size ∧
    (get_tile zeroNoise tinyMap 16777217 0 0).map (fun r => r.1.pos)
      = some ((16777216 : ℚ), (0 : ℚ)) ∧
    ¬ ((16777216 : ℚ), (0 : ℚ)) = ((16777217 : ℚ), (0 : ℚ)) := by
  refine ⟨by decide, ?_, by
    intro h
    rw [Prod.mk.injEq] at h
    exact absurd h.1 (by norm_num)⟩
  obtain ⟨m2, h1, -, -, -, -⟩ :=
    get_tile_spec zeroNoise tinyMap 16777217 0 0
      ⟨nodupKeys_nil, fun _ hpx => absurd hpx (List.not_mem_nil _)⟩
      (by decide) (by decide) (by decide) (by decide) (by decide)
  rw [h1, Option.map_some']
  have hc := mkTile_classify zeroNoise tinyMap.random_seed
    tinyMap.level_thickness 16777217 0 0
    (|zeroNoise tinyMap.random_seed ((16777217 : ℕ) : ℚ) ((0 : ℕ) : ℚ)
      ((wmul 0 tinyMap.level_thickness : ℕ) : ℚ)|) rfl
  have hpos := hc.2.1
  dsimp only
  rw [hpos]
  have e1 : f32round 16777217 = 16777216 := by decide
  have e0 : f32round 0 = 0 := by decide
  unfold f32ofNat
  rw [e1, e0]
  norm_num

/-- Claim C9: `get_tile` is total — under the no-overflow range
conditions every call returns a Tile (`some`), every unwrapped lookup
succeeds because the generated chunk has a slice of length
`chunk_size * chunk_size` for every local depth index below `chunk_size`,
and the flat index is strictly within that length; in particular every
coordinate below the declared `max_chuncks_* * chunk_size` range of the
actual store returns a Tile. -/
theorem claim_C9 :
    (∀ (noise : ℕ → ℚ → ℚ → ℚ → ℚ) (g : GameMap) (x y z : ℕ),
      GoodStore noise g → 0 < g.chunk_size →
      g.chunk_size * g.chunk_size ≤ U32 → x + g.chunk_size < U32 →
      y + g.chunk_size < U32 → z + g.chunk_size < U32 →
      (∃ t g' gen, get_tile noise g x y z = some (t, g', gen)) ∧
      (∀ r, r < g.chunk_size → ∃ sl,
        mfind (genChunkFor noise g.chunk_size g.level_thickness g.random_seed
          (centerKeyOf g.chunk_size (x, y, z))) r = some sl ∧
        sl.length = g.chunk_size * g.chunk_size) ∧
      wadd (x % g.chunk_size) (wmul (y % g.chunk_size) g.chunk_size)
        < g.chunk_size * g.chunk_size) ∧
    (∀ (noise : ℕ → ℚ → ℚ → ℚ → ℚ) (x y z : ℕ),
      x < GameMap.new.max_chuncks_x * GameMap.new.chunk_size →
      y < GameMap.new.max_chuncks_y * GameMap.new.chunk_size →
      z < GameMap.new.max_chuncks_z * GameMap.new.chunk_size →
      ∃ t g' gen, get_tile noise GameMap.new x y z = some (t, g', gen)) := by
  constructor
  · intro noise g x y z hg hcs hcs2 hx hy hz
    obtain ⟨m2, h1, -, -, -, -⟩ :=
      get_tile_spec noise g x y z hg hcs hcs2 hx hy hz
    refine ⟨⟨_, _, _, h1⟩, ?_, ?_⟩
    · intro r hr
      have hgen := genChunkFor_eq_generate noise g.chunk_size
        g.level_thickness g.random_seed x y z
      rw [hgen]
      exact generate_map_chunk_total noise
        (x / g.chunk_size * g.chunk_size) (y / g.chunk_size * g.chunk_size)
        (z / g.chunk_size * g.chunk_size) g.chunk_size g.level_thickness
        g.random_seed hcs ⟨z / g.chunk_size, by ring⟩ r hr
    · have hidx := index_small x y g.chunk_size hcs hcs2
      rw [hidx.1]
      exact hidx.2
  · intro noise x y z hx hy hz
    have hnew : GoodStore noise GameMap.new :=
      ⟨nodupKeys_nil, fun _ hpx => absurd hpx (List.not_mem_nil _)⟩
    have hx' : x < 20000000 := hx
    have hy' : y < 20000000 := hy
    have hz' : z < 1024 := hz
    have hc64 : GameMap.new.chunk_size = 64 := rfl
    obtain ⟨m2, h1, -, -, -, -⟩ :=
      get_tile_spec noise GameMap.new x y z hnew
        (by decide : (0 : ℕ) < 64) (by decide : 64 * 64 ≤ U32)
        (by rw [U32_eq, hc64]; omega) (by rw [U32_eq, hc64]; omega)
        (by rw [U32_eq, hc64]; omega)
    exact ⟨_, _, _, h1⟩

/-- Witness for C9: totality at the origin of the actual store. -/
theorem claim_C9_witness :
    ∃ t g' gen, get_tile zeroNoise GameMap.new 0 0 0 = some (t, g', gen) :=
  claim_C9.2 zeroNoise 0 0 0 (by decide) (by decide) (by decide)

/-- Claim C10: `GameMap::new` takes no inputs and computes its
`random_seed` from the fixed generator `oorandom::Rand32::new(10)`, whose
first output is the constant `3856235553`; consequently any two
independently constructed stores answer every query identically (with the
same deterministic noise sampler). -/
theorem claim_C10 :
    GameMap.new.random_seed = 3856235553 ∧
    GameMap.new.random_seed = ((Rand32.new 10).rand_u32).1 ∧
    (∀ g1 g2 : GameMap, g1 = GameMap.new → g2 = GameMap.new →
      ∀ (noise : ℕ → ℚ → ℚ → ℚ → ℚ) (x y z : ℕ),
        get_tile noise g1 x y z = get_tile noise g2 x y z) := by
  refine ⟨by decide, rfl, ?_⟩
  intro g1 g2 h1 h2 noise x y z
  rw [h1, h2]

/-- Witness for C10: both the seed constant and the two-instance
agreement at a concrete query. -/
theorem claim_C10_witness :
    GameMap.new.random_seed = 3856235553 ∧
    get_tile zeroNoise GameMap.new 0 0 0 = get_tile zeroNoise GameMap.new 0 0 0 :=
  ⟨claim_C10.1, claim_C10.2.2 GameMap.new GameMap.new rfl rfl zeroNoise 0 0 0⟩

end JMC
